import Mathlib

/-!
Verification of the ternary search trie map (`TSTMap`) of this repository.

The embedding models `src/src/map.rs` directly.  The companion module
`node.rs` (the `Node` type and its `insert_node` / `get` / `remove` /
`is_leaf` helpers) is not part of the sources; those operations are
modelled from the specification (sections 3 and 4.1 of the spec), as
marked in the doc comments below.

Conventions of the embedding:
- a Rust string key is a `List Char` (Rust `str::chars()` iterates
  Unicode scalar values, exactly `Char` here);
- `Option<Box<Node<V>>>` is the inductive `Node V` whose `nil`
  constructor is Rust `None`;
- Rust panics (assertion failures, out-of-range indexing/slicing) are
  `Except.error` / `Option.none` results;
- `usize` byte lengths are `Nat` computed with `charBytes` (the UTF-8
  width of a scalar value), matching Rust `str::len()`.
-/

namespace Tst

/-- Model of `Option<Box<Node<V>>>` from the missing `node.rs`.
Modelled from the spec (section 3): one character, ownership of
zero-to-three child nodes (less, equal, greater), an optional value.
`nil` is Rust `None`; `node c lt eq gt val` is a boxed node. -/
inductive Node (V : Type) where
  | nil : Node V
  | node (c : Char) (lt eq gt : Node V) (val : Option V) : Node V
deriving DecidableEq

namespace Node

variable {V : Type}

/-- Number of bytes of the UTF-8 encoding of a scalar value; mirrors the
byte width used by Rust `str::len()`. -/
def charBytes (c : Char) : Nat :=
  if c.val ≤ 0x7F then 1
  else if c.val ≤ 0x7FF then 2
  else if c.val ≤ 0xFFFF then 3
  else 4

/-- Byte length of a key, Rust `key.len()`. -/
def utf8Len (k : List Char) : Nat := (k.map charBytes).sum

/-- Rust byte slicing `&s[..n]`: take the first `n` bytes of the UTF-8
encoding.  Returns `none` (a panic) when `n` is not a character
boundary. -/
def takeBytes : Nat → List Char → Option (List Char)
  | 0, _ => some []
  | _ + 1, [] => none
  | n + 1, c :: rest =>
      if charBytes c ≤ n + 1 then
        (takeBytes (n + 1 - charBytes c) rest).map (c :: ·)
      else none

/-- Lexicographic strict order on keys, as Rust `String` ordering
(byte-lexicographic, which on UTF-8 agrees with scalar-value
lexicographic order). -/
def keyLt : List Char → List Char → Bool
  | [], [] => false
  | [], _ :: _ => true
  | _ :: _, [] => false
  | a :: as, b :: bs => a < b || (a = b && keyLt as bs)

/-- In-order denotation of a subtree, given the prefix accumulated along
the equal-chain: less subtree, own binding, equal subtree, greater
subtree.  This is the reference order of the traversal engine. -/
def toList : Node V → List Char → List (List Char × V)
  | nil, _ => []
  | node c lt eq gt val, pre =>
      toList lt pre ++
      (match val with
       | some v => [(pre ++ [c], v)]
       | none => []) ++
      toList eq (pre ++ [c]) ++
      toList gt pre

/-- Count of an optional value. -/
def ocnt : Option V → Nat
  | none => 0
  | some _ => 1

/-- Count of nodes currently holding a value. -/
def numVals : Node V → Nat
  | nil => 0
  | node _ lt eq gt val => ocnt val + numVals lt + numVals eq + numVals gt

/-- Whether the subtree holds at least one value. -/
def hasVal : Node V → Bool
  | nil => false
  | node _ lt eq gt val => val.isSome || hasVal lt || hasVal eq || hasVal gt

/-- Whether the link is absent (`Option::is_none` on a child link). -/
def isNil : Node V → Bool
  | nil => true
  | node _ _ _ _ _ => false

/-- Modelled from the spec: a node with an absent value and all three
child links absent is a dead node (spec section 3); `map.rs` prunes the
root through `is_leaf` after a successful removal. -/
def is_leaf : Node V → Bool
  | nil => true
  | node _ lt eq gt val => val.isNone && isNil lt && isNil eq && isNil gt

/-- Detach a dead node (spec section 3, lifecycle): a node with no value
and no children is replaced by the absent link. -/
def prune (t : Node V) : Node V := if is_leaf t then nil else t

/-- No dead node anywhere: every present node has a value somewhere in
its subtree and its children satisfy the same. -/
def fertile : Node V → Bool
  | nil => true
  | node _ lt eq gt val =>
      (val.isSome || hasVal lt || hasVal eq || hasVal gt) &&
      fertile lt && fertile eq && fertile gt

/-- Children-only variant of `fertile` (the node itself may be dead). -/
def fparts : Node V → Bool
  | nil => true
  | node _ lt eq gt _ => fertile lt && fertile eq && fertile gt

/-- Lower bound on a character within one key position. -/
def okLo : Option Char → Char → Bool
  | none, _ => true
  | some a, c => a < c

/-- Upper bound on a character within one key position. -/
def okHi : Char → Option Char → Bool
  | _, none => true
  | c, some b => c < b

/-- The ternary-search ordering invariant: the node character lies in
the open interval `(lo, hi)`, the less/greater children refine the
interval, and the equal child starts a fresh position. -/
def ordered : Node V → Option Char → Option Char → Bool
  | nil, _, _ => true
  | node c lt eq gt _, lo, hi =>
      okLo lo c && okHi c hi &&
      ordered lt lo (some c) && ordered gt (some c) hi && ordered eq none none

/-- Descend the less/greater chain of one key position looking for the
node carrying character `c`; answer `miss` if the chain has no such
node, else hand the node's equal child and value to `K`.  This is the
branching step shared by lookup, insertion and deletion (spec section
4.1: less and greater transitions branch within the same key
position). -/
def seek {α : Type} (c : Char) (miss : α) (K : Node V → Option V → α) : Node V → α
  | nil => miss
  | node c' lt eq gt val =>
      if c < c' then seek c miss K lt
      else if c' < c then seek c miss K gt
      else K eq val

/-- Modelled from the spec (section 4.1, lookup): pure descent with the
same branching logic as path materialization, stopping with `none` the
moment a required child is absent.  `find k t` is `Node::get` composed
with reading the terminal node's value, as `TSTMap::get` does. -/
def find : List Char → Node V → Option V
  | [], _ => none
  | [c], t => seek c none (fun _ val => val) t
  | c :: r1 :: rs, t => seek c none (fun eq _ => find (r1 :: rs) eq) t

/-- Rebuilding analogue of `seek`: descend the less/greater chain to the
node carrying `c`, creating a fresh `node c nil nil nil none` when the
chain runs out; replace that node's equal child and value by `E`/`W`
and return `R` of the old ones alongside. -/
def insChar (c : Char) (E : Node V → Option V → Node V)
    (W : Node V → Option V → Option V) (R : Node V → Option V → Option V) :
    Node V → Node V × Option V
  | nil => (node c nil (E nil none) nil (W nil none), R nil none)
  | node c' lt eq gt val =>
      if c < c' then
        let p := insChar c E W R lt
        (node c' p.1 eq gt val, p.2)
      else if c' < c then
        let p := insChar c E W R gt
        (node c' lt eq p.1 val, p.2)
      else (node c' lt (E eq val) gt (W eq val), R eq val)

/-- Modelled from the spec (section 4.1, materialize path for key):
walks from the given link, creating missing nodes as needed, and applies
`f` to the terminal node's value slot, returning the updated tree and
the previous value of that slot.  This fuses `Node::insert_node` with
the caller's read/overwrite of the terminal node, which is how `map.rs`
uses it in `insert` and `entry`. -/
def insertWith : List Char → (Option V → Option V) → Node V → Node V × Option V
  | [], _, t => (t, none)
  | [c], f, t =>
      insChar c (fun eq _ => eq) (fun _ val => f val) (fun _ val => val) t
  | c :: r1 :: rs, f, t =>
      insChar c (fun eq _ => (insertWith (r1 :: rs) f eq).1)
        (fun _ val => val) (fun eq _ => (insertWith (r1 :: rs) f eq).2) t

/-- Deletion analogue of `insChar`: descend the less/greater chain to
the node carrying `c` (no node is created on a miss), replace its equal
child and value by `E`/`W`, return `R` of the old ones, and prune every
rebuilt child on the way back (spec section 4.1, delete: walking back up
the exact path just taken, detach every node left with no value and no
children). -/
def remChar (c : Char) (E : Node V → Option V → Node V)
    (W : Node V → Option V → Option V) (R : Node V → Option V → Option V) :
    Node V → Option V × Node V
  | nil => (none, nil)
  | node c' lt eq gt val =>
      if c < c' then
        let p := remChar c E W R lt
        (p.1, node c' (prune p.2) eq gt val)
      else if c' < c then
        let p := remChar c E W R gt
        (p.1, node c' lt eq (prune p.2) val)
      else (R eq val, node c' lt (E eq val) gt (W eq val))

/-- Modelled from the spec (section 4.1, delete): descend to the
terminal node for the key; clear its value (returning it) and detach
every node on the path left with no value and no children.  The
top-level node itself is left attached even if dead — `map.rs` handles
the root case through `is_leaf` after `Node::remove` returns. -/
def remove : List Char → Node V → Option V × Node V
  | [], t => (none, t)
  | [c], t =>
      remChar c (fun eq _ => eq) (fun _ _ => none) (fun _ val => val) t
  | c :: r1 :: rs, t =>
      remChar c (fun eq _ => prune (remove (r1 :: rs) eq).2)
        (fun _ val => val) (fun eq _ => (remove (r1 :: rs) eq).1) t

/-- The two nested loops of `TSTMap::longest_prefix` (map.rs): for each
candidate character, the inner loop descends less/greater links; on a
character match the consumed count `i` grows and the recorded length
becomes `i` whenever the matched node carries a value.  Returns the last
recorded length (`0` if none was recorded). -/
def lpLen : List Char → Nat → Nat → Node V → Nat
  | [], _, len0, _ => len0
  | c :: rest, i, len0, t =>
      seek c len0
        (fun eq val => lpLen rest (i + 1) (if val.isSome then i + 1 else len0) eq) t

/-- Pattern match of a fixed-length wildcard pattern against a key
suffix: equal lengths, and at every position the pattern character is
the reserved any symbol or equal to the key character. -/
def wcMatch : List Char → List Char → Bool
  | [], [] => true
  | p :: ps, c :: cs => (p = '.' || p = c) && wcMatch ps cs
  | _, _ => false

/-- Recursive denotation of one expansion of `WildCardIter::next`
(map.rs): with pattern cursor `idx` at a node with character `c`,
explore less if the pattern character is the any symbol or smaller,
yield the node's value if the cursor ends the pattern, continue into the
equal child with cursor `idx + 1` if another pattern character remains,
and explore greater if the pattern character is the any symbol or
larger.  The `none` cursor lookup case is unreachable while the cursor
stays inside the pattern. -/
def recWild (pat : List Char) : Node V → List Char → Nat → List (List Char × V)
  | nil, _, _ => []
  | node c lt eq gt val, pre, idx =>
      match pat[idx]? with
      | none => []
      | some ch =>
          (if ch = '.' ∨ ch < c then recWild pat lt pre idx else []) ++
          (if (ch = '.' ∨ ch = c) ∧ idx + 1 = pat.length then
            (match val with
             | some v => [(pre ++ [c], v)]
             | none => [])
          else []) ++
          (if (ch = '.' ∨ ch = c) ∧ idx + 1 < pat.length then
            recWild pat eq (pre ++ [c]) (idx + 1)
          else []) ++
          (if ch = '.' ∨ c < ch then recWild pat gt pre idx else [])

end Node

open Node

/-- `TSTMap<V>` of map.rs: the optional root and the cached size. -/
structure TSTMap (V : Type) where
  root : Node V
  size : Nat
deriving DecidableEq

namespace TSTMap

variable {V : Type}

/-- `TSTMap::new`. -/
def new : TSTMap V := ⟨Node.nil, 0⟩

/-- `TSTMap::len`. -/
def len (m : TSTMap V) : Nat := m.size

/-- `TSTMap::insert` (map.rs lines 97-106): asserts the key is non-empty
and shorter than 2000 bytes (both panics, modelled as errors),
materializes the path, swaps in the new value, increments the size iff
the previous value was absent, and returns the previous value. -/
def insert (m : TSTMap V) (k : List Char) (v : V) :
    Except String (Option V × TSTMap V) :=
  if 0 < utf8Len k then
    if utf8Len k < 2000 then
      let p := insertWith k (fun _ => some v) m.root
      .ok (p.2, ⟨p.1, if p.2.isNone then m.size + 1 else m.size⟩)
    else .error "Key is too long"
  else .error "Empty key"

/-- `TSTMap::get`. -/
def get (m : TSTMap V) (k : List Char) : Option V := find k m.root

/-- `TSTMap::contains_key`. -/
def contains_key (m : TSTMap V) (k : List Char) : Bool := (get m k).isSome

/-- `TSTMap::remove` (map.rs lines 145-155): delegate to `Node::remove`;
on success decrement the size and drop the root if it has become a
leaf. -/
def remove (m : TSTMap V) (k : List Char) : Option V × TSTMap V :=
  let p := Node.remove k m.root
  match p.1 with
  | none => (none, ⟨p.2, m.size⟩)
  | some v => (some v, ⟨if is_leaf p.2 then Node.nil else p.2, m.size - 1⟩)

/-- `TSTMap::clear`. -/
def clear (_ : TSTMap V) : TSTMap V := new

/-- `TSTMap::entry` followed by `Entry::or_insert` (map.rs lines
124-130, 879-884, 929-932): asserts the key is non-empty only (no
length check), materializes the path; an occupied entry keeps its value,
a vacant entry stores `d` — and `VacantEntry::insert` leaves the
container size unchanged (it holds no reference to it). -/
def entry_or_insert (m : TSTMap V) (k : List Char) (d : V) :
    Except String (TSTMap V) :=
  if 0 < utf8Len k then
    let p := insertWith k (fun ov => match ov with
      | some v => some v
      | none => some d) m.root
    .ok ⟨p.1, m.size⟩
  else .error "Empty key"

/-- `TSTMap::longest_prefix` (map.rs lines 306-331): run the two nested
loops to get the recorded length — a count of characters — and slice the
candidate to that many bytes (`&pref[..length]`), a panic (`none`) when
that byte index is not a character boundary. -/
def longestPrefix (m : TSTMap V) (cand : List Char) : Option (List Char) :=
  takeBytes (lpLen cand 0 0 m.root) cand

end TSTMap

/-- One frame of the `Iter` stack (map.rs line 562): either a subtree
pending with its accumulated prefix, or a completed key with its value
pending. -/
inductive Frame (V : Type) where
  | sub (t : Node V) (pre : List Char) : Frame V
  | pend (k : List Char) (v : V) : Frame V

namespace Frame

variable {V : Type}

/-- Termination weight of a subtree. -/
def nu : Node V → Nat
  | Node.nil => 1
  | Node.node _ lt eq gt _ => nu lt + nu eq + nu gt + 2

/-- Termination weight of a frame. -/
def w : Frame V → Nat
  | sub t _ => nu t
  | pend _ _ => 1

/-- Termination weight of a stack. -/
def stackW (st : List (Frame V)) : Nat := (st.map w).sum

/-- The frames pushed by one expansion of `Iter::next` (map.rs lines
622-640), listed top of stack first: the code pushes greater, then
equal, then the value, then less, so the pop order is less, value,
equal, greater. -/
def pushes (c : Char) (lt eq gt : Node V) (val : Option V) (pre : List Char) :
    List (Frame V) :=
  (if isNil lt then [] else [sub lt pre]) ++
  (match val with
   | some v => [pend (pre ++ [c]) v]
   | none => []) ++
  (if isNil eq then [] else [sub eq (pre ++ [c])]) ++
  (if isNil gt then [] else [sub gt pre])

theorem stackW_append (a b : List (Frame V)) :
    stackW (a ++ b) = stackW a + stackW b := by
  simp [stackW]

theorem nu_pos (t : Node V) : 0 < nu t := by
  cases t <;> simp [nu]

theorem stackW_cons (f : Frame V) (st : List (Frame V)) :
    stackW (f :: st) = w f + stackW st := by
  simp [stackW]

theorem stackW_pushes (c : Char) (lt eq gt : Node V) (val : Option V)
    (pre : List Char) :
    stackW (pushes c lt eq gt val pre) < nu (Node.node c lt eq gt val) := by
  have hl : stackW (V := V) (if isNil lt then [] else [sub lt pre]) ≤ nu lt := by
    split
    · simp [stackW]
    · simp [stackW, w]
  have hv : stackW (V := V)
      (match val with
       | some v => [pend (pre ++ [c]) v]
       | none => []) ≤ 1 := by
    cases val <;> simp [stackW, w]
  have he : stackW (V := V) (if isNil eq then [] else [sub eq (pre ++ [c])]) ≤ nu eq := by
    split
    · simp [stackW]
    · simp [stackW, w]
  have hg : stackW (V := V) (if isNil gt then [] else [sub gt pre]) ≤ nu gt := by
    split
    · simp [stackW]
    · simp [stackW, w]
  simp only [pushes, stackW_append, nu]
  omega

end Frame

/-- The loop of `Iter::next` (map.rs lines 608-646), run to exhaustion:
pop frames until the stack is empty, emitting each value-pending frame
and expanding each subtree-pending frame into its pushes. -/
def iterRun : List (Frame V) → List (List Char × V)
  | [] => []
  | .pend k v :: st => (k, v) :: iterRun st
  | .sub Node.nil _ :: st => iterRun st
  | .sub (Node.node c lt eq gt val) pre :: st =>
      iterRun (Frame.pushes c lt eq gt val pre ++ st)
termination_by st => Frame.stackW st
decreasing_by
  · simp only [Frame.stackW_cons, Frame.w]
    omega
  · simp only [Frame.stackW_cons, Frame.w, Frame.nu]
    omega
  · simp only [Frame.stackW_cons, Frame.stackW_append, Frame.w]
    have := Frame.stackW_pushes c lt eq gt val pre
    omega

/-- `TSTMap::iter` (map.rs lines 411-414 and `Iter::new`), run to a
list: the stack is seeded with the whole root and the empty prefix. -/
def TSTMap.iterList (m : TSTMap V) : List (List Char × V) :=
  iterRun [Frame.sub m.root []]

/-- One frame of the `WildCardIter` stack (map.rs line 716): a subtree
pending with its prefix and pattern cursor, or a value pending. -/
inductive WFrame (V : Type) where
  | sub (t : Node V) (pre : List Char) (idx : Nat) : WFrame V
  | pend (k : List Char) (v : V) : WFrame V

namespace WFrame

variable {V : Type}

/-- Termination weight of a wildcard frame. -/
def w : WFrame V → Nat
  | sub t _ _ => Frame.nu t
  | pend _ _ => 1

/-- Termination weight of a wildcard stack. -/
def stackW (st : List (WFrame V)) : Nat := (st.map w).sum

/-- The frames pushed by one expansion of `WildCardIter::next` (map.rs
lines 744-769), top of stack first; `ch` is the pattern character at the
cursor.  Greater is explored when `ch` is the any symbol or larger than
the node character, the value is yielded when the cursor ends the
pattern, the equal child is entered with the cursor advanced when
another pattern character remains, less is explored when `ch` is the any
symbol or smaller. -/
def pushes (pat : List Char) (ch c : Char) (lt eq gt : Node V) (val : Option V)
    (pre : List Char) (idx : Nat) : List (WFrame V) :=
  (if (ch = '.' ∨ ch < c) ∧ isNil lt = false then [sub lt pre idx] else []) ++
  (match val with
   | some v =>
      if (ch = '.' ∨ ch = c) ∧ idx + 1 = pat.length then [pend (pre ++ [c]) v]
      else []
   | none => []) ++
  (if (ch = '.' ∨ ch = c) ∧ idx + 1 < pat.length ∧ isNil eq = false then
    [sub eq (pre ++ [c]) (idx + 1)]
  else []) ++
  (if (ch = '.' ∨ c < ch) ∧ isNil gt = false then [sub gt pre idx] else [])

theorem wstackW_append (a b : List (WFrame V)) :
    stackW (a ++ b) = stackW a + stackW b := by
  simp [stackW]

theorem wstackW_cons (f : WFrame V) (st : List (WFrame V)) :
    stackW (f :: st) = w f + stackW st := by
  simp [stackW]

theorem wstackW_pushes (pat : List Char) (ch c : Char) (lt eq gt : Node V)
    (val : Option V) (pre : List Char) (idx : Nat) :
    stackW (pushes pat ch c lt eq gt val pre idx) <
      Frame.nu (Node.node c lt eq gt val) := by
  have hl : stackW (V := V)
      (if (ch = '.' ∨ ch < c) ∧ isNil lt = false then [sub lt pre idx] else []) ≤
        Frame.nu lt := by
    split
    · simp [stackW, w]
    · simp [stackW]
  have hv : stackW (V := V)
      (match val with
       | some v =>
          if (ch = '.' ∨ ch = c) ∧ idx + 1 = pat.length then [pend (pre ++ [c]) v]
          else []
       | none => []) ≤ 1 := by
    cases val with
    | none => simp [stackW]
    | some v =>
        show stackW
          (if (ch = '.' ∨ ch = c) ∧ idx + 1 = pat.length then [pend (pre ++ [c]) v]
           else []) ≤ 1
        split <;> simp [stackW, w]
  have he : stackW (V := V)
      (if (ch = '.' ∨ ch = c) ∧ idx + 1 < pat.length ∧ isNil eq = false then
        [sub eq (pre ++ [c]) (idx + 1)]
      else []) ≤ Frame.nu eq := by
    split
    · simp [stackW, w]
    · simp [stackW]
  have hg : stackW (V := V)
      (if (ch = '.' ∨ c < ch) ∧ isNil gt = false then [sub gt pre idx] else []) ≤
        Frame.nu gt := by
    split
    · simp [stackW, w]
    · simp [stackW]
  simp only [pushes, wstackW_append, Frame.nu]
  omega

end WFrame

/-- The loop of `WildCardIter::next` (map.rs lines 733-776), run to
exhaustion.  Expanding a subtree-pending frame reads the pattern
character at the cursor (`self.pat[idx]`), an out-of-range panic —
`none` — when the cursor is past the end of the pattern. -/
def wildRun (pat : List Char) : List (WFrame V) → Option (List (List Char × V))
  | [] => some []
  | .pend k v :: st => (wildRun pat st).map ((k, v) :: ·)
  | .sub Node.nil _ _ :: st => wildRun pat st
  | .sub (Node.node c lt eq gt val) pre idx :: st =>
      match pat[idx]? with
      | none => none
      | some ch => wildRun pat (WFrame.pushes pat ch c lt eq gt val pre idx ++ st)
termination_by st => WFrame.stackW st
decreasing_by
  · simp only [WFrame.wstackW_cons, WFrame.w]
    omega
  · simp only [WFrame.wstackW_cons, WFrame.w, Frame.nu]
    omega
  · simp only [WFrame.wstackW_cons, WFrame.wstackW_append, WFrame.w]
    have := WFrame.wstackW_pushes pat ch c lt eq gt val pre idx
    omega

/-- `TSTMap::wildcard_iter` (map.rs lines 285-287 and
`WildCardIter::new`), run to a list: the stack is seeded with the root,
the empty prefix and cursor `0`. -/
def TSTMap.wildcardList (m : TSTMap V) (pat : List Char) :
    Option (List (List Char × V)) :=
  wildRun pat [WFrame.sub m.root [] 0]

/-- The `Debug` rendering of map.rs lines 545-553: an opening brace,
then for every pair of `iter()` the debug form of the key (quoted),
a colon-space, the rendering of the value, and a comma; then a closing
brace.  `vs` renders a value as Rust `{:?}` does; keys are assumed to
contain no characters needing escapes, as in the golden tests. -/
def TSTMap.debugFmt (m : TSTMap V) (vs : V → String) : String :=
  "\x7b" ++
    String.join ((TSTMap.iterList m).map
      (fun p => "\x22" ++ String.mk p.1 ++ "\x22: " ++ vs p.2 ++ ",")) ++
  "\x7d"

/-- A public mutating operation of the container facade. -/
inductive Op (V : Type) where
  | ins (k : List Char) (v : V) : Op V
  | del (k : List Char) : Op V
  | orIns (k : List Char) (d : V) : Op V
  | clear : Op V

/-- Apply one public operation; a panic (invalid argument) aborts the
operation and leaves the container unchanged. -/
def applyOp (m : TSTMap V) : Op V → TSTMap V
  | .ins k v =>
      match TSTMap.insert m k v with
      | .ok p => p.2
      | .error _ => m
  | .del k => (TSTMap.remove m k).2
  | .orIns k d =>
      match TSTMap.entry_or_insert m k d with
      | .ok m' => m'
      | .error _ => m
  | .clear => TSTMap.new

/-- The container reached from `new` by a sequence of public
operations. -/
def build (ops : List (Op V)) : TSTMap V := ops.foldl applyOp TSTMap.new

/-- `TSTMap::from_iter` (map.rs lines 511-519): repeated `insert`. -/
def fromList (ps : List (List Char × V)) : TSTMap V :=
  ps.foldl (fun m p => applyOp m (Op.ins p.1 p.2)) TSTMap.new

/-- Fold `remove` over a list of keys. -/
def removeAll (m : TSTMap V) (ks : List (List Char)) : TSTMap V :=
  ks.foldl (fun m k => (TSTMap.remove m k).2) m

/-!
Unfolding equations at the level of one node, recovering the natural
mixed recursion (structural on the tree along less/greater, structural
on the key along equal) from the nested definitions above.
-/

namespace Node

variable {V : Type}

theorem find_nil (k : List Char) : find k (nil : Node V) = none := by
  match k with
  | [] => rfl
  | [c] => rfl
  | c :: r1 :: rs => rfl

theorem find_node (c : Char) (rest : List Char) (c' : Char)
    (lt eq gt : Node V) (val : Option V) :
    find (c :: rest) (node c' lt eq gt val) =
      if c < c' then find (c :: rest) lt
      else if c' < c then find (c :: rest) gt
      else
        match rest with
        | [] => val
        | r1 :: rs => find (r1 :: rs) eq := by
  cases rest <;> rfl

theorem insertWith_nil (c : Char) (rest : List Char) (f : Option V → Option V) :
    insertWith (c :: rest) f (nil : Node V) =
      match rest with
      | [] => (node c nil nil nil (f none), none)
      | r1 :: rs =>
          (node c nil (insertWith (r1 :: rs) f nil).1 nil none,
            (insertWith (r1 :: rs) f nil).2) := by
  cases rest <;> rfl

theorem insertWith_node (c : Char) (rest : List Char) (f : Option V → Option V)
    (c' : Char) (lt eq gt : Node V) (val : Option V) :
    insertWith (c :: rest) f (node c' lt eq gt val) =
      if c < c' then
        (node c' (insertWith (c :: rest) f lt).1 eq gt val,
          (insertWith (c :: rest) f lt).2)
      else if c' < c then
        (node c' lt eq (insertWith (c :: rest) f gt).1 val,
          (insertWith (c :: rest) f gt).2)
      else
        match rest with
        | [] => (node c' lt eq gt (f val), val)
        | r1 :: rs =>
            (node c' lt (insertWith (r1 :: rs) f eq).1 gt val,
              (insertWith (r1 :: rs) f eq).2) := by
  cases rest <;> simp only [insertWith, insChar]

theorem remove_nil (k : List Char) : remove k (nil : Node V) = (none, nil) := by
  match k with
  | [] => rfl
  | [c] => rfl
  | c :: r1 :: rs => rfl

theorem remove_node (c : Char) (rest : List Char) (c' : Char)
    (lt eq gt : Node V) (val : Option V) :
    remove (c :: rest) (node c' lt eq gt val) =
      if c < c' then
        ((remove (c :: rest) lt).1,
          node c' (prune (remove (c :: rest) lt).2) eq gt val)
      else if c' < c then
        ((remove (c :: rest) gt).1,
          node c' lt eq (prune (remove (c :: rest) gt).2) val)
      else
        match rest with
        | [] => (val, node c' lt eq gt none)
        | r1 :: rs =>
            ((remove (r1 :: rs) eq).1,
              node c' lt (prune (remove (r1 :: rs) eq).2) gt val) := by
  cases rest <;> simp only [remove, remChar]

theorem lpLen_nil (k : List Char) (i len0 : Nat) :
    lpLen k i len0 (nil : Node V) = len0 := by
  cases k <;> rfl

theorem lpLen_node (c : Char) (rest : List Char) (i len0 : Nat) (c' : Char)
    (lt eq gt : Node V) (val : Option V) :
    lpLen (c :: rest) i len0 (node c' lt eq gt val) =
      if c < c' then lpLen (c :: rest) i len0 lt
      else if c' < c then lpLen (c :: rest) i len0 gt
      else lpLen rest (i + 1) (if val.isSome then i + 1 else len0) eq := rfl

/-- The previous value returned by path materialization is exactly what
lookup finds. -/
theorem insertWith_snd :
    ∀ (rest : List Char) (c : Char) (f : Option V → Option V) (t : Node V),
      (insertWith (c :: rest) f t).2 = find (c :: rest) t := by
  intro rest
  induction rest with
  | nil =>
      intro c f t
      induction t with
      | nil => simp [insertWith_nil, find_nil]
      | node c' lt eq gt val ihl ihe ihg =>
          rw [insertWith_node, find_node]
          by_cases h1 : c < c'
          · simpa [h1] using ihl
          · by_cases h2 : c' < c
            · simpa [h1, h2] using ihg
            · simp [h1, h2]
  | cons r1 rs IH =>
      intro c f t
      induction t with
      | nil =>
          rw [insertWith_nil]
          simp only [find_nil, IH r1 f nil]
      | node c' lt eq gt val ihl ihe ihg =>
          rw [insertWith_node, find_node]
          by_cases h1 : c < c'
          · simpa [h1] using ihl
          · by_cases h2 : c' < c
            · simpa [h1, h2] using ihg
            · simpa [h1, h2] using IH r1 f eq

/-- Lookup after path materialization: the materialized key now holds
the updated value, every other key is untouched. -/
theorem find_insertWith :
    ∀ (rest : List Char) (c : Char) (f : Option V → Option V) (t : Node V)
      (q : List Char),
      find q (insertWith (c :: rest) f t).1 =
        if q = c :: rest then f (find (c :: rest) t) else find q t := by
  intro rest
  induction rest with
  | nil =>
      intro c f t q
      induction t with
      | nil =>
          rw [insertWith_nil]
          cases q with
          | nil => simp [find, find_nil]
          | cons q1 qs =>
              simp only [find_node]
              rcases lt_trichotomy q1 c with hq | hq | hq
              · have hne : q1 :: qs ≠ [c] := by
                  intro h
                  injection h with h1 _
                  exact ne_of_lt hq h1
                simp [hq, lt_asymm hq, hne, find_nil]
              · subst hq
                cases qs with
                | nil => simp [find_nil, lt_irrefl]
                | cons q2 qs' => simp [find_nil, lt_irrefl]
              · have hne : q1 :: qs ≠ [c] := by
                  intro h
                  injection h with h1 _
                  exact ne_of_gt hq h1
                simp [hq, lt_asymm hq, hne, find_nil]
      | node c' lt eq gt val ihl ihe ihg =>
          rw [insertWith_node]
          rcases lt_trichotomy c c' with h1 | h1 | h1
          · simp only [if_pos h1]
            cases q with
            | nil => simp [find]
            | cons q1 qs =>
                simp only [find_node]
                rcases lt_trichotomy q1 c' with hq | hq | hq
                · simp [hq, lt_asymm hq, h1, ihl]
                · subst hq
                  have hne : q1 :: qs ≠ [c] := by
                    intro h
                    injection h with h1' _
                    exact ne_of_gt (h1' ▸ h1) rfl
                  simp [lt_irrefl, hne]
                · have hne : q1 :: qs ≠ [c] := by
                    intro h
                    injection h with h1' _
                    exact ne_of_gt (lt_trans h1 (h1' ▸ hq)) h1'
                  simp [hq, lt_asymm hq, hne]
          · subst h1
            simp only [if_neg (lt_irrefl c), lt_irrefl]
            cases q with
            | nil => simp [find]
            | cons q1 qs =>
                simp only [find_node]
                rcases lt_trichotomy q1 c with hq | hq | hq
                · have hne : q1 :: qs ≠ [c] := by
                    intro h
                    injection h with h1 _
                    exact ne_of_lt hq h1
                  simp [find_node, hq, lt_asymm hq, hne]
                · subst hq
                  cases qs with
                  | nil => simp [find_node, lt_irrefl]
                  | cons q2 qs' => simp [find_node, lt_irrefl]
                · have hne : q1 :: qs ≠ [c] := by
                    intro h
                    injection h with h1 _
                    exact ne_of_gt hq h1
                  simp [find_node, hq, lt_asymm hq, hne]
          · simp only [if_neg (lt_asymm h1), if_pos h1]
            cases q with
            | nil => simp [find]
            | cons q1 qs =>
                simp only [find_node]
                rcases lt_trichotomy q1 c' with hq | hq | hq
                · have hne : q1 :: qs ≠ [c] := by
                    intro h
                    injection h with h1' _
                    exact ne_of_lt (lt_trans (h1' ▸ hq) h1) h1'
                  simp [hq, lt_asymm hq, hne]
                · subst hq
                  have hne : q1 :: qs ≠ [c] := by
                    intro h
                    injection h with h1' _
                    exact ne_of_lt (h1' ▸ h1) rfl
                  simp [lt_irrefl, hne]
                · simp [hq, lt_asymm hq, h1, lt_asymm h1, ihg]
  | cons r1 rs IH =>
      intro c f t q
      induction t with
      | nil =>
          rw [insertWith_nil]
          cases q with
          | nil => simp [find, find_nil]
          | cons q1 qs =>
              simp only [find_node]
              rcases lt_trichotomy q1 c with hq | hq | hq
              · have hne : q1 :: qs ≠ c :: r1 :: rs := by
                  intro h
                  injection h with h1 _
                  exact ne_of_lt hq h1
                simp [hq, lt_asymm hq, hne, find_nil]
              · subst hq
                cases qs with
                | nil => simp [find_nil, lt_irrefl]
                | cons q2 qs' =>
                    by_cases h : q2 :: qs' = r1 :: rs <;>
                      simp [lt_irrefl, IH r1 f nil, find_nil, h]
              · have hne : q1 :: qs ≠ c :: r1 :: rs := by
                  intro h
                  injection h with h1 _
                  exact ne_of_gt hq h1
                simp [hq, lt_asymm hq, hne, find_nil]
      | node c' lt eq gt val ihl ihe ihg =>
          rw [insertWith_node]
          rcases lt_trichotomy c c' with h1 | h1 | h1
          · simp only [if_pos h1]
            cases q with
            | nil => simp [find]
            | cons q1 qs =>
                simp only [find_node]
                rcases lt_trichotomy q1 c' with hq | hq | hq
                · simp [hq, lt_asymm hq, h1, ihl]
                · subst hq
                  have hne : q1 :: qs ≠ c :: r1 :: rs := by
                    intro h
                    injection h with h1' _
                    exact ne_of_gt (h1' ▸ h1) rfl
                  simp [lt_irrefl, hne]
                · have hne : q1 :: qs ≠ c :: r1 :: rs := by
                    intro h
                    injection h with h1' _
                    exact ne_of_gt (lt_trans h1 (h1' ▸ hq)) h1'
                  simp [hq, lt_asymm hq, hne]
          · subst h1
            simp only [if_neg (lt_irrefl c), lt_irrefl]
            cases q with
            | nil => simp [find]
            | cons q1 qs =>
                simp only [find_node]
                rcases lt_trichotomy q1 c with hq | hq | hq
                · have hne : q1 :: qs ≠ c :: r1 :: rs := by
                    intro h
                    injection h with h1 _
                    exact ne_of_lt hq h1
                  simp [find_node, hq, lt_asymm hq, hne]
                · subst hq
                  cases qs with
                  | nil => simp [find_node, lt_irrefl]
                  | cons q2 qs' =>
                      by_cases h : q2 :: qs' = r1 :: rs <;>
                        simp [lt_irrefl, IH r1 f eq, find_node, h]
                · have hne : q1 :: qs ≠ c :: r1 :: rs := by
                    intro h
                    injection h with h1 _
                    exact ne_of_gt hq h1
                  simp [find_node, hq, lt_asymm hq, hne]
          · simp only [if_neg (lt_asymm h1), if_pos h1]
            cases q with
            | nil => simp [find]
            | cons q1 qs =>
                simp only [find_node]
                rcases lt_trichotomy q1 c' with hq | hq | hq
                · have hne : q1 :: qs ≠ c :: r1 :: rs := by
                    intro h
                    injection h with h1' _
                    exact ne_of_lt (lt_trans (h1' ▸ hq) h1) h1'
                  simp [hq, lt_asymm hq, hne]
                · subst hq
                  have hne : q1 :: qs ≠ c :: r1 :: rs := by
                    intro h
                    injection h with h1' _
                    exact ne_of_lt (h1' ▸ h1) rfl
                  simp [lt_irrefl, hne]
                · simp [hq, lt_asymm hq, h1, lt_asymm h1, ihg]

/-- Path materialization preserves the ternary-search ordering
invariant, provided the first key character fits the interval. -/
theorem ordered_insertWith :
    ∀ (rest : List Char) (c : Char) (f : Option V → Option V) (t : Node V)
      (lo hi : Option Char),
      ordered t lo hi = true → okLo lo c = true → okHi c hi = true →
      ordered (insertWith (c :: rest) f t).1 lo hi = true := by
  intro rest
  induction rest with
  | nil =>
      intro c f t
      induction t with
      | nil =>
          intro lo hi ht hlo hhi
          rw [insertWith_nil]
          simp [ordered, hlo, hhi]
      | node c' lt eq gt val ihl ihe ihg =>
          intro lo hi ht hlo hhi
          rw [insertWith_node]
          simp only [ordered, Bool.and_eq_true] at ht
          obtain ⟨⟨⟨⟨hA, hB⟩, hC⟩, hD⟩, hE⟩ := ht
          rcases lt_trichotomy c c' with h1 | h1 | h1
          · have hrec := ihl lo (some c') hC hlo (by simp [okHi, h1])
            simp [ordered, hA, hB, hD, hE, hrec, if_pos h1]
          · subst h1
            simp [ordered, lt_irrefl, hA, hB, hC, hD, hE]
          · have hrec := ihg (some c') hi hD (by simp [okLo, h1]) hhi
            simp [ordered, hA, hB, hC, hE, hrec, if_neg (lt_asymm h1), if_pos h1]
  | cons r1 rs IH =>
      intro c f t
      induction t with
      | nil =>
          intro lo hi ht hlo hhi
          rw [insertWith_nil]
          have hrec := IH r1 f nil none none (by simp [ordered]) (by simp [okLo])
            (by simp [okHi])
          simp [ordered, hlo, hhi, hrec]
      | node c' lt eq gt val ihl ihe ihg =>
          intro lo hi ht hlo hhi
          rw [insertWith_node]
          simp only [ordered, Bool.and_eq_true] at ht
          obtain ⟨⟨⟨⟨hA, hB⟩, hC⟩, hD⟩, hE⟩ := ht
          rcases lt_trichotomy c c' with h1 | h1 | h1
          · have hrec := ihl lo (some c') hC hlo (by simp [okHi, h1])
            simp [ordered, hA, hB, hD, hE, hrec, if_pos h1]
          · subst h1
            have hrec := IH r1 f eq none none hE (by simp [okLo]) (by simp [okHi])
            simp [ordered, lt_irrefl, hA, hB, hC, hD, hrec]
          · have hrec := ihg (some c') hi hD (by simp [okLo, h1]) hhi
            simp [ordered, hA, hB, hC, hE, hrec, if_neg (lt_asymm h1), if_pos h1]

theorem keyLt_append (p : List Char) (a b : List Char) :
    keyLt (p ++ a) (p ++ b) = keyLt a b := by
  induction p with
  | nil => rfl
  | cons x xs ih => simp [keyLt, ih]

/-- A strictly smaller character at the first position after a common
prefix decides the lexicographic order. -/
theorem keyLt_head (p : List Char) (a b : Char) (r1 r2 : List Char)
    (h : a < b) : keyLt (p ++ a :: r1) (p ++ b :: r2) = true := by
  rw [keyLt_append]
  simp [keyLt, h]

/-- A strict prefix is lexicographically smaller. -/
theorem keyLt_pref (p : List Char) (c x : Char) (r : List Char) :
    keyLt (p ++ [c]) (p ++ c :: x :: r) = true := by
  rw [keyLt_append]
  simp [keyLt]

theorem keyLt_irrefl : ∀ (k : List Char), keyLt k k = false := by
  intro k
  induction k with
  | nil => rfl
  | cons x xs ih => simp [keyLt, ih]

theorem okLo_of_lt {lo : Option Char} {c c' : Char} (h : c < c')
    (hl : okLo lo c = true) : okLo lo c' = true := by
  cases lo with
  | none => rfl
  | some a =>
      simp only [okLo, decide_eq_true_eq] at hl ⊢
      exact lt_trans hl h

theorem okHi_of_lt {hi : Option Char} {c c' : Char} (h : c' < c)
    (hh : okHi c hi = true) : okHi c' hi = true := by
  cases hi with
  | none => rfl
  | some b =>
      simp only [okHi, decide_eq_true_eq] at hh ⊢
      exact lt_trans h hh

/-- Every binding listed from an ordered subtree extends the prefix by a
character inside the interval. -/
theorem toList_shape :
    ∀ (t : Node V) (lo hi : Option Char) (pre : List Char),
      ordered t lo hi = true →
      ∀ q ∈ toList t pre,
        ∃ c' r', q.1 = pre ++ c' :: r' ∧ okLo lo c' = true ∧ okHi c' hi = true := by
  intro t
  induction t with
  | nil => intro lo hi pre _ q hq; simp [toList] at hq
  | node c lt eq gt val ihl ihe ihg =>
      intro lo hi pre ht q hq
      simp only [ordered, Bool.and_eq_true] at ht
      obtain ⟨⟨⟨⟨hA, hB⟩, hC⟩, hD⟩, hE⟩ := ht
      simp only [toList, List.mem_append] at hq
      rcases hq with ((hq | hq) | hq) | hq
      · obtain ⟨c', r', hk, hl, hh⟩ := ihl lo (some c) pre hC q hq
        exact ⟨c', r', hk, hl, okHi_of_lt (by simpa [okHi] using hh) hB⟩
      · cases val with
        | none => simp at hq
        | some w =>
            simp only [List.mem_singleton] at hq
            exact ⟨c, [], by rw [hq], hA, hB⟩
      · obtain ⟨c', r', hk, _, _⟩ := ihe none none (pre ++ [c]) hE q hq
        refine ⟨c, [c'] ++ r', ?_, hA, hB⟩
        rw [hk, List.append_assoc]
        rfl
      · obtain ⟨c', r', hk, hl, hh⟩ := ihg (some c) hi pre hD q hq
        exact ⟨c', r', hk, okLo_of_lt (by simpa [okLo] using hl) hA, hh⟩

/-- Membership in the optional own-binding piece of `toList`. -/
theorem mem_valList {val : Option V} {c : Char} {pre : List Char}
    {q : List Char × V}
    (hq : q ∈ (match val with
      | some v => [(pre ++ [c], v)]
      | none => ([] : List (List Char × V)))) :
    q.1 = pre ++ [c] := by
  cases val with
  | none => simp at hq
  | some w =>
      simp only [List.mem_singleton] at hq
      rw [hq]

/-- The in-order listing of an ordered subtree is strictly ascending in
the lexicographic key order. -/
theorem toList_sorted :
    ∀ (t : Node V) (lo hi : Option Char) (pre : List Char),
      ordered t lo hi = true →
      (toList t pre).Pairwise (fun a b => keyLt a.1 b.1 = true) := by
  intro t
  induction t with
  | nil => intro lo hi pre _; simp [toList]
  | node c lt eq gt val ihl ihe ihg =>
      intro lo hi pre ht
      simp only [ordered, Bool.and_eq_true] at ht
      obtain ⟨⟨⟨⟨hA, hB⟩, hC⟩, hD⟩, hE⟩ := ht
      simp only [toList]
      rw [List.append_assoc, List.append_assoc]
      refine List.pairwise_append.2 ⟨ihl lo (some c) pre hC, ?_, ?_⟩
      · refine List.pairwise_append.2 ⟨?_, ?_, ?_⟩
        · cases val <;> simp
        · refine List.pairwise_append.2
            ⟨ihe none none (pre ++ [c]) hE, ihg (some c) hi pre hD, ?_⟩
          intro a ha b hb
          obtain ⟨ce, re, hak, _, _⟩ :=
            toList_shape eq none none (pre ++ [c]) hE a ha
          obtain ⟨cd, rd, hbk, hdl, _⟩ :=
            toList_shape gt (some c) hi pre hD b hb
          have hcd : c < cd := by simpa [okLo] using hdl
          rw [hak, hbk, List.append_assoc]
          exact keyLt_head pre c cd (ce :: re) rd hcd
        · intro a ha b hb
          have hak := mem_valList ha
          rcases List.mem_append.1 hb with hbC | hbD
          · obtain ⟨ce, re, hbk, _, _⟩ :=
              toList_shape eq none none (pre ++ [c]) hE b hbC
            rw [hak, hbk, List.append_assoc]
            exact keyLt_pref pre c ce re
          · obtain ⟨cd, rd, hbk, hdl, _⟩ :=
              toList_shape gt (some c) hi pre hD b hbD
            have hcd : c < cd := by simpa [okLo] using hdl
            rw [hak, hbk]
            exact keyLt_head pre c cd [] rd hcd
      · intro a ha b hb
        obtain ⟨ca, ra, hak, _, hah⟩ := toList_shape lt lo (some c) pre hC a ha
        have hca : ca < c := by simpa [okHi] using hah
        rcases List.mem_append.1 hb with hbB | hbCD
        · have hbk := mem_valList hbB
          rw [hak, hbk]
          exact keyLt_head pre ca c ra [] hca
        · rcases List.mem_append.1 hbCD with hbC | hbD
          · obtain ⟨ce, re, hbk, _, _⟩ :=
              toList_shape eq none none (pre ++ [c]) hE b hbC
            rw [hak, hbk, List.append_assoc]
            exact keyLt_head pre ca c ra (ce :: re) hca
          · obtain ⟨cd, rd, hbk, hdl, _⟩ :=
              toList_shape gt (some c) hi pre hD b hbD
            have hcd : c < cd := by simpa [okLo] using hdl
            rw [hak, hbk]
            exact keyLt_head pre ca cd ra rd (lt_trans hca hcd)

/-- Under the ordering invariant, a binding is listed iff lookup finds
it: completeness and soundness of the search descent. -/
theorem mem_toList_iff_find :
    ∀ (t : Node V) (lo hi : Option Char) (pre k : List Char) (v : V),
      ordered t lo hi = true →
      ((pre ++ k, v) ∈ toList t pre ↔ find k t = some v) := by
  intro t
  induction t with
  | nil =>
      intro lo hi pre k v _
      simp [toList, find_nil]
  | node c lt eq gt val ihl ihe ihg =>
      intro lo hi pre k v ht
      simp only [ordered, Bool.and_eq_true] at ht
      obtain ⟨⟨⟨⟨hA, hB⟩, hC⟩, hD⟩, hE⟩ := ht
      simp only [toList, List.mem_append]
      cases k with
      | nil =>
          constructor
          · rintro (((hq | hq) | hq) | hq)
            · obtain ⟨c', r', hk, _, _⟩ := toList_shape lt lo (some c) pre hC _ hq
              have hlen := congrArg List.length hk
              simp [List.length_append] at hlen
            · have hk := mem_valList hq
              have hlen := congrArg List.length hk
              simp [List.length_append] at hlen
            · obtain ⟨c', r', hk, _, _⟩ :=
                toList_shape eq none none (pre ++ [c]) hE _ hq
              have hlen := congrArg List.length hk
              simp [List.length_append] at hlen
            · obtain ⟨c', r', hk, _, _⟩ := toList_shape gt (some c) hi pre hD _ hq
              have hlen := congrArg List.length hk
              simp [List.length_append] at hlen
          · intro h
            rw [show find ([] : List Char) (node c lt eq gt val) = none from rfl] at h
            exact absurd h (by simp)
      | cons q1 qs =>
          rw [find_node]
          have keyeq : ∀ (x : Char) (xs : List Char),
              pre ++ q1 :: qs = pre ++ x :: xs → q1 = x ∧ qs = xs := by
            intro x xs h
            have := List.append_cancel_left h
            injection this with h1 h2
            exact ⟨h1, h2⟩
          rcases lt_trichotomy q1 c with hq1 | hq1 | hq1
          · rw [if_pos hq1]
            constructor
            · rintro (((hq | hq) | hq) | hq)
              · exact (ihl lo (some c) pre _ v hC).1 hq
              · have hk := mem_valList hq
                exact absurd (keyeq c [] hk).1 (ne_of_lt hq1)
              · obtain ⟨c', r', hk, _, _⟩ :=
                  toList_shape eq none none (pre ++ [c]) hE _ hq
                rw [List.append_assoc] at hk
                exact absurd (keyeq c ([c'] ++ r') (by simpa using hk)).1
                  (ne_of_lt hq1)
              · obtain ⟨c', r', hk, hl, _⟩ :=
                  toList_shape gt (some c) hi pre hD _ hq
                have : c < c' := by simpa [okLo] using hl
                exact absurd ((keyeq c' r' hk).1.symm ▸ this) (asymm hq1)
            · intro h
              exact Or.inl (Or.inl (Or.inl ((ihl lo (some c) pre _ v hC).2 h)))
          · subst hq1
            rw [if_neg (lt_irrefl q1), if_neg (lt_irrefl q1)]
            cases qs with
            | nil =>
                constructor
                · rintro (((hq | hq) | hq) | hq)
                  · obtain ⟨c', r', hk, _, hh⟩ :=
                      toList_shape lt lo (some q1) pre hC _ hq
                    have : c' < q1 := by simpa [okHi] using hh
                    exact absurd ((keyeq c' r' hk).1 ▸ this) (lt_irrefl q1)
                  · cases val with
                    | none => simp at hq
                    | some w =>
                        simp only [List.mem_singleton, Prod.mk.injEq] at hq
                        rw [hq.2]
                  · obtain ⟨c', r', hk, _, _⟩ :=
                      toList_shape eq none none (pre ++ [q1]) hE _ hq
                    rw [List.append_assoc] at hk
                    have := (keyeq q1 ([c'] ++ r') (by simp at hk)).2
                    simp at this
                  · obtain ⟨c', r', hk, hl, _⟩ :=
                      toList_shape gt (some q1) hi pre hD _ hq
                    have : q1 < c' := by simpa [okLo] using hl
                    exact absurd ((keyeq c' r' hk).1 ▸ this) (lt_irrefl q1)
                · intro h
                  refine Or.inl (Or.inl (Or.inr ?_))
                  have hval : val = some v := h
                  rw [hval]
                  simp
            | cons q2 qs' =>
                constructor
                · rintro (((hq | hq) | hq) | hq)
                  · obtain ⟨c', r', hk, _, hh⟩ :=
                      toList_shape lt lo (some q1) pre hC _ hq
                    have : c' < q1 := by simpa [okHi] using hh
                    exact absurd ((keyeq c' r' hk).1 ▸ this) (lt_irrefl q1)
                  · have hk := mem_valList hq
                    have := (keyeq q1 [] hk).2
                    simp at this
                  · have hre : pre ++ q1 :: q2 :: qs' =
                        (pre ++ [q1]) ++ (q2 :: qs') := by
                      rw [List.append_assoc]
                      rfl
                    rw [hre] at hq
                    exact (ihe none none (pre ++ [q1]) _ v hE).1 hq
                  · obtain ⟨c', r', hk, hl, _⟩ :=
                      toList_shape gt (some q1) hi pre hD _ hq
                    have : q1 < c' := by simpa [okLo] using hl
                    exact absurd ((keyeq c' r' hk).1 ▸ this) (lt_irrefl q1)
                · intro h
                  refine Or.inl (Or.inr ?_)
                  have hre : pre ++ q1 :: q2 :: qs' =
                      (pre ++ [q1]) ++ (q2 :: qs') := by
                    rw [List.append_assoc]
                    rfl
                  rw [hre]
                  exact (ihe none none (pre ++ [q1]) _ v hE).2 h
          · rw [if_neg (asymm hq1), if_pos hq1]
            constructor
            · rintro (((hq | hq) | hq) | hq)
              · obtain ⟨c', r', hk, _, hh⟩ :=
                  toList_shape lt lo (some c) pre hC _ hq
                have : c' < c := by simpa [okHi] using hh
                exact absurd ((keyeq c' r' hk).1.symm ▸ this) (asymm hq1)
              · have hk := mem_valList hq
                exact absurd (keyeq c [] hk).1 (ne_of_gt hq1)
              · obtain ⟨c', r', hk, _, _⟩ :=
                  toList_shape eq none none (pre ++ [c]) hE _ hq
                rw [List.append_assoc] at hk
                exact absurd (keyeq c ([c'] ++ r') (by simpa using hk)).1
                  (ne_of_gt hq1)
              · exact (ihg (some c) hi pre _ v hD).1 hq
            · intro h
              exact Or.inr ((ihg (some c) hi pre _ v hD).2 h)

/-- The size cache target: the number of value-holding nodes is the
number of listed bindings. -/
theorem numVals_toList :
    ∀ (t : Node V) (pre : List Char), numVals t = (toList t pre).length := by
  intro t
  induction t with
  | nil => intro pre; simp [numVals, toList]
  | node c lt eq gt val ihl ihe ihg =>
      intro pre
      cases val <;>
        simp [numVals, ocnt, toList, List.length_append, ihl pre,
          ihe (pre ++ [c]), ihg pre] <;>
        omega

/-- How path materialization changes the number of value-holding nodes,
in additive form. -/
theorem numVals_insertWith :
    ∀ (rest : List Char) (c : Char) (f : Option V → Option V) (t : Node V),
      numVals (insertWith (c :: rest) f t).1 + ocnt (find (c :: rest) t) =
        numVals t + ocnt (f (find (c :: rest) t)) := by
  intro rest
  induction rest with
  | nil =>
      intro c f t
      induction t with
      | nil => simp [insertWith_nil, find_nil, numVals, ocnt]
      | node c' lt eq gt val ihl ihe ihg =>
          rw [insertWith_node, find_node]
          rcases lt_trichotomy c c' with h1 | h1 | h1
          · simp only [if_pos h1, numVals]
            omega
          · subst h1
            simp only [if_neg (lt_irrefl c), lt_irrefl, if_false, numVals]
            omega
          · simp only [if_neg (lt_asymm h1), if_pos h1, numVals]
            omega
  | cons r1 rs IH =>
      intro c f t
      induction t with
      | nil =>
          rw [insertWith_nil]
          have := IH r1 f nil
          rw [find_nil] at this ⊢
          simp only [numVals, ocnt, find_nil] at this ⊢
          omega
      | node c' lt eq gt val ihl ihe ihg =>
          rw [insertWith_node, find_node]
          rcases lt_trichotomy c c' with h1 | h1 | h1
          · simp only [if_pos h1, numVals]
            omega
          · subst h1
            have := IH r1 f eq
            simp only [if_neg (lt_irrefl c), lt_irrefl, if_false, numVals]
            omega
          · simp only [if_neg (lt_asymm h1), if_pos h1, numVals]
            omega

/-- Materializing a path with a value-producing update leaves a value in
the subtree. -/
theorem hasVal_insertWith :
    ∀ (rest : List Char) (c : Char) (f : Option V → Option V) (t : Node V),
      (∀ x, (f x).isSome = true) →
      hasVal (insertWith (c :: rest) f t).1 = true := by
  intro rest
  induction rest with
  | nil =>
      intro c f t hf
      induction t with
      | nil => simp [insertWith_nil, hasVal, hf]
      | node c' lt eq gt val ihl ihe ihg =>
          rw [insertWith_node]
          rcases lt_trichotomy c c' with h1 | h1 | h1
          · simp [if_pos h1, hasVal, ihl]
          · subst h1
            simp [lt_irrefl, hasVal, hf]
          · simp [if_neg (lt_asymm h1), if_pos h1, hasVal, ihg]
  | cons r1 rs IH =>
      intro c f t hf
      induction t with
      | nil =>
          rw [insertWith_nil]
          simp [hasVal, IH r1 f nil hf]
      | node c' lt eq gt val ihl ihe ihg =>
          rw [insertWith_node]
          rcases lt_trichotomy c c' with h1 | h1 | h1
          · simp [if_pos h1, hasVal, ihl]
          · subst h1
            simp [lt_irrefl, hasVal, IH r1 f eq hf]
          · simp [if_neg (lt_asymm h1), if_pos h1, hasVal, ihg]

/-- Path materialization with a value-producing update preserves
freedom from dead nodes. -/
theorem fertile_insertWith :
    ∀ (rest : List Char) (c : Char) (f : Option V → Option V) (t : Node V),
      (∀ x, (f x).isSome = true) → fertile t = true →
      fertile (insertWith (c :: rest) f t).1 = true := by
  intro rest
  induction rest with
  | nil =>
      intro c f t hf
      induction t with
      | nil =>
          intro _
          simp [insertWith_nil, fertile, hasVal, hf]
      | node c' lt eq gt val ihl ihe ihg =>
          intro ht
          simp only [fertile, Bool.and_eq_true, Bool.or_eq_true] at ht
          obtain ⟨⟨⟨_, hFl⟩, hFe⟩, hFg⟩ := ht
          rw [insertWith_node]
          rcases lt_trichotomy c c' with h1 | h1 | h1
          · have hv := hasVal_insertWith [] c f lt hf
            simp [if_pos h1, fertile, ihl hFl, hFe, hFg, hv]
          · subst h1
            simp [lt_irrefl, fertile, hFl, hFe, hFg, hf]
          · have hv := hasVal_insertWith [] c f gt hf
            simp [if_neg (lt_asymm h1), if_pos h1, fertile, ihg hFg, hFl, hFe, hv]
  | cons r1 rs IH =>
      intro c f t hf
      induction t with
      | nil =>
          intro _
          rw [insertWith_nil]
          have hv := hasVal_insertWith rs r1 f nil hf
          have hfe := IH r1 f nil hf (by simp [fertile])
          simp [fertile, hasVal, hv, hfe]
      | node c' lt eq gt val ihl ihe ihg =>
          intro ht
          simp only [fertile, Bool.and_eq_true, Bool.or_eq_true] at ht
          obtain ⟨⟨⟨_, hFl⟩, hFe⟩, hFg⟩ := ht
          rw [insertWith_node]
          rcases lt_trichotomy c c' with h1 | h1 | h1
          · have hv := hasVal_insertWith (r1 :: rs) c f lt hf
            simp [if_pos h1, fertile, ihl hFl, hFe, hFg, hv]
          · subst h1
            have hv := hasVal_insertWith rs r1 f eq hf
            have hfe := IH r1 f eq hf hFe
            simp [lt_irrefl, fertile, hFl, hFg, hfe, hv]
          · have hv := hasVal_insertWith (r1 :: rs) c f gt hf
            simp [if_neg (lt_asymm h1), if_pos h1, fertile, ihg hFg, hFl, hFe, hv]

theorem isNil_true {t : Node V} (h : isNil t = true) : t = nil := by
  cases t with
  | nil => rfl
  | node c lt eq gt val => simp [isNil] at h

/-- A detached-or-kept node holds the same bindings: a dead node holds
none. -/
theorem find_prune (t : Node V) (k : List Char) : find k (prune t) = find k t := by
  cases t with
  | nil => rfl
  | node c lt eq gt val =>
      by_cases h : is_leaf (node c lt eq gt val) = true
      · simp only [is_leaf, Bool.and_eq_true] at h
        obtain ⟨⟨⟨hv, h1⟩, h2⟩, h3⟩ := h
        rw [Option.isNone_iff_eq_none] at hv
        subst hv
        rw [isNil_true h1, isNil_true h2, isNil_true h3]
        rw [prune, if_pos (by simp [is_leaf, isNil])]
        rw [find_nil]
        cases k with
        | nil => rfl
        | cons q qs =>
            rw [find_node]
            rcases lt_trichotomy q c with hq | hq | hq
            · simp [hq, find_nil]
            · subst hq
              cases qs <;> simp [lt_irrefl, find_nil]
            · simp [hq, lt_asymm hq, find_nil]
      · rw [prune, if_neg h]

theorem prune_nil : prune (nil : Node V) = nil := rfl

/-- The value returned by deletion is exactly what lookup finds. -/
theorem remove_fst_cons :
    ∀ (rest : List Char) (c : Char) (t : Node V),
      (remove (c :: rest) t).1 = find (c :: rest) t := by
  intro rest
  induction rest with
  | nil =>
      intro c t
      induction t with
      | nil => simp [remove_nil, find_nil]
      | node c' lt eq gt val ihl ihe ihg =>
          rw [remove_node, find_node]
          rcases lt_trichotomy c c' with h1 | h1 | h1
          · simpa [h1] using ihl
          · subst h1
            simp [lt_irrefl]
          · simpa [h1, lt_asymm h1] using ihg
  | cons r1 rs IH =>
      intro c t
      induction t with
      | nil => simp [remove_nil, find_nil]
      | node c' lt eq gt val ihl ihe ihg =>
          rw [remove_node, find_node]
          rcases lt_trichotomy c c' with h1 | h1 | h1
          · simpa [h1] using ihl
          · subst h1
            simpa [lt_irrefl] using IH r1 eq
          · simpa [h1, lt_asymm h1] using ihg

/-- Lookup after deletion: the removed key is gone, everything else is
untouched. -/
theorem find_remove_cons :
    ∀ (rest : List Char) (c : Char) (t : Node V) (q : List Char),
      find q (remove (c :: rest) t).2 =
        if q = c :: rest then none else find q t := by
  intro rest
  induction rest with
  | nil =>
      intro c t q
      induction t with
      | nil =>
          rw [remove_nil]
          simp [find_nil]
      | node c' lt eq gt val ihl ihe ihg =>
          rw [remove_node]
          rcases lt_trichotomy c c' with h1 | h1 | h1
          · simp only [if_pos h1]
            cases q with
            | nil => simp [find]
            | cons q1 qs =>
                simp only [find_node, find_prune]
                rcases lt_trichotomy q1 c' with hq | hq | hq
                · simp [hq, lt_asymm hq, ihl]
                · subst hq
                  have hne : q1 :: qs ≠ [c] := by
                    intro h
                    injection h with h1' _
                    exact ne_of_gt (h1' ▸ h1) rfl
                  simp [lt_irrefl, hne]
                · have hne : q1 :: qs ≠ [c] := by
                    intro h
                    injection h with h1' _
                    exact ne_of_gt (lt_trans h1 (h1' ▸ hq)) h1'
                  simp [hq, lt_asymm hq, hne]
          · subst h1
            simp only [if_neg (lt_irrefl c), lt_irrefl]
            cases q with
            | nil => simp [find]
            | cons q1 qs =>
                simp only [find_node]
                rcases lt_trichotomy q1 c with hq | hq | hq
                · have hne : q1 :: qs ≠ [c] := by
                    intro h
                    injection h with h1 _
                    exact ne_of_lt hq h1
                  simp [find_node, hq, lt_asymm hq, hne]
                · subst hq
                  cases qs with
                  | nil => simp [find_node, lt_irrefl]
                  | cons q2 qs' => simp [find_node, lt_irrefl]
                · have hne : q1 :: qs ≠ [c] := by
                    intro h
                    injection h with h1 _
                    exact ne_of_gt hq h1
                  simp [find_node, hq, lt_asymm hq, hne]
          · simp only [if_neg (lt_asymm h1), if_pos h1]
            cases q with
            | nil => simp [find]
            | cons q1 qs =>
                simp only [find_node, find_prune]
                rcases lt_trichotomy q1 c' with hq | hq | hq
                · have hne : q1 :: qs ≠ [c] := by
                    intro h
                    injection h with h1' _
                    exact ne_of_lt (lt_trans (h1' ▸ hq) h1) h1'
                  simp [hq, lt_asymm hq, hne]
                · subst hq
                  have hne : q1 :: qs ≠ [c] := by
                    intro h
                    injection h with h1' _
                    exact ne_of_lt (h1' ▸ h1) rfl
                  simp [lt_irrefl, hne]
                · simp [hq, lt_asymm hq, ihg]
  | cons r1 rs IH =>
      intro c t q
      induction t with
      | nil =>
          rw [remove_nil]
          simp [find_nil]
      | node c' lt eq gt val ihl ihe ihg =>
          rw [remove_node]
          rcases lt_trichotomy c c' with h1 | h1 | h1
          · simp only [if_pos h1]
            cases q with
            | nil => simp [find]
            | cons q1 qs =>
                simp only [find_node, find_prune]
                rcases lt_trichotomy q1 c' with hq | hq | hq
                · simp [hq, lt_asymm hq, ihl]
                · subst hq
                  have hne : q1 :: qs ≠ c :: r1 :: rs := by
                    intro h
                    injection h with h1' _
                    exact ne_of_gt (h1' ▸ h1) rfl
                  simp [lt_irrefl, hne]
                · have hne : q1 :: qs ≠ c :: r1 :: rs := by
                    intro h
                    injection h with h1' _
                    exact ne_of_gt (lt_trans h1 (h1' ▸ hq)) h1'
                  simp [hq, lt_asymm hq, hne]
          · subst h1
            simp only [if_neg (lt_irrefl c), lt_irrefl]
            cases q with
            | nil => simp [find]
            | cons q1 qs =>
                simp only [find_node, find_prune]
                rcases lt_trichotomy q1 c with hq | hq | hq
                · have hne : q1 :: qs ≠ c :: r1 :: rs := by
                    intro h
                    injection h with h1 _
                    exact ne_of_lt hq h1
                  simp [find_node, hq, lt_asymm hq, hne]
                · subst hq
                  cases qs with
                  | nil => simp [find_node, lt_irrefl]
                  | cons q2 qs' =>
                      by_cases h : q2 :: qs' = r1 :: rs <;>
                        simp [lt_irrefl, find_prune, IH r1 eq, find_node, h]
                · have hne : q1 :: qs ≠ c :: r1 :: rs := by
                    intro h
                    injection h with h1 _
                    exact ne_of_gt hq h1
                  simp [find_node, hq, lt_asymm hq, hne]
          · simp only [if_neg (lt_asymm h1), if_pos h1]
            cases q with
            | nil => simp [find]
            | cons q1 qs =>
                simp only [find_node, find_prune]
                rcases lt_trichotomy q1 c' with hq | hq | hq
                · have hne : q1 :: qs ≠ c :: r1 :: rs := by
                    intro h
                    injection h with h1' _
                    exact ne_of_lt (lt_trans (h1' ▸ hq) h1) h1'
                  simp [hq, lt_asymm hq, hne]
                · subst hq
                  have hne : q1 :: qs ≠ c :: r1 :: rs := by
                    intro h
                    injection h with h1' _
                    exact ne_of_lt (h1' ▸ h1) rfl
                  simp [lt_irrefl, hne]
                · simp [hq, lt_asymm hq, ihg]

theorem ordered_prune {t : Node V} {lo hi : Option Char}
    (h : ordered t lo hi = true) : ordered (prune t) lo hi = true := by
  rw [prune]
  split
  · simp [ordered]
  · exact h

/-- Deletion preserves the ordering invariant. -/
theorem ordered_remove_cons :
    ∀ (rest : List Char) (c : Char) (t : Node V) (lo hi : Option Char),
      ordered t lo hi = true → ordered (remove (c :: rest) t).2 lo hi = true := by
  intro rest
  induction rest with
  | nil =>
      intro c t
      induction t with
      | nil => intro lo hi h; simpa [remove_nil] using h
      | node c' lt eq gt val ihl ihe ihg =>
          intro lo hi ht
          simp only [ordered, Bool.and_eq_true] at ht
          obtain ⟨⟨⟨⟨hA, hB⟩, hC⟩, hD⟩, hE⟩ := ht
          rw [remove_node]
          rcases lt_trichotomy c c' with h1 | h1 | h1
          · have hrec := ordered_prune (ihl lo (some c') hC)
            simp [if_pos h1, ordered, hA, hB, hD, hE, hrec]
          · subst h1
            simp [lt_irrefl, ordered, hA, hB, hC, hD, hE]
          · have hrec := ordered_prune (ihg (some c') hi hD)
            simp [if_neg (lt_asymm h1), if_pos h1, ordered, hA, hB, hC, hE, hrec]
  | cons r1 rs IH =>
      intro c t
      induction t with
      | nil => intro lo hi h; simpa [remove_nil] using h
      | node c' lt eq gt val ihl ihe ihg =>
          intro lo hi ht
          simp only [ordered, Bool.and_eq_true] at ht
          obtain ⟨⟨⟨⟨hA, hB⟩, hC⟩, hD⟩, hE⟩ := ht
          rw [remove_node]
          rcases lt_trichotomy c c' with h1 | h1 | h1
          · have hrec := ordered_prune (ihl lo (some c') hC)
            simp [if_pos h1, ordered, hA, hB, hD, hE, hrec]
          · subst h1
            have hrec := ordered_prune (IH r1 eq none none hE)
            simp [lt_irrefl, ordered, hA, hB, hC, hD, hrec]
          · have hrec := ordered_prune (ihg (some c') hi hD)
            simp [if_neg (lt_asymm h1), if_pos h1, ordered, hA, hB, hC, hE, hrec]

theorem numVals_prune (t : Node V) : numVals (prune t) = numVals t := by
  cases t with
  | nil => rfl
  | node c lt eq gt val =>
      rw [prune]
      split
      · next h =>
          simp only [is_leaf, Bool.and_eq_true] at h
          obtain ⟨⟨⟨hv, h1⟩, h2⟩, h3⟩ := h
          rw [Option.isNone_iff_eq_none] at hv
          subst hv
          rw [isNil_true h1, isNil_true h2, isNil_true h3]
          simp [numVals, ocnt]
      · rfl

/-- Deletion removes exactly the found value from the count. -/
theorem numVals_remove_cons :
    ∀ (rest : List Char) (c : Char) (t : Node V),
      numVals (remove (c :: rest) t).2 + ocnt (find (c :: rest) t) =
        numVals t := by
  intro rest
  induction rest with
  | nil =>
      intro c t
      induction t with
      | nil => simp [remove_nil, find_nil, numVals, ocnt]
      | node c' lt eq gt val ihl ihe ihg =>
          rw [remove_node, find_node]
          rcases lt_trichotomy c c' with h1 | h1 | h1
          · simp only [if_pos h1, numVals, numVals_prune]
            omega
          · subst h1
            simp only [if_neg (lt_irrefl c), lt_irrefl, if_false, numVals, ocnt]
            omega
          · simp only [if_neg (lt_asymm h1), if_pos h1, numVals, numVals_prune]
            omega
  | cons r1 rs IH =>
      intro c t
      induction t with
      | nil => simp [remove_nil, find_nil, numVals, ocnt]
      | node c' lt eq gt val ihl ihe ihg =>
          rw [remove_node, find_node]
          rcases lt_trichotomy c c' with h1 | h1 | h1
          · simp only [if_pos h1, numVals, numVals_prune]
            omega
          · subst h1
            have := IH r1 eq
            simp only [if_neg (lt_irrefl c), lt_irrefl, if_false, numVals,
              numVals_prune]
            omega
          · simp only [if_neg (lt_asymm h1), if_pos h1, numVals, numVals_prune]
            omega

theorem fertile_hasVal_of_ne {u : Node V} (hf : fertile u = true)
    (hn : isNil u = false) : hasVal u = true := by
  cases u with
  | nil => simp [isNil] at hn
  | node c lt eq gt val =>
      simp only [fertile, Bool.and_eq_true] at hf
      simpa [hasVal] using hf.1.1.1

/-- A live node is never pruned. -/
theorem prune_of_fertile {t : Node V} (hf : fertile t = true) : prune t = t := by
  cases t with
  | nil => rfl
  | node c lt eq gt val =>
      rw [prune]
      split
      · next h =>
          simp only [is_leaf, Bool.and_eq_true] at h
          obtain ⟨⟨⟨hv, h1⟩, h2⟩, h3⟩ := h
          rw [Option.isNone_iff_eq_none] at hv
          subst hv
          rw [isNil_true h1, isNil_true h2, isNil_true h3] at hf
          simp [fertile, hasVal] at hf
      · rfl

/-- Children-fertile plus pruning yields a dead-node-free subtree. -/
theorem fertile_prune_of_fparts (s : Node V) (h : fparts s = true) :
    fertile (prune s) = true := by
  cases s with
  | nil => rfl
  | node c lt eq gt val =>
      simp only [fparts, Bool.and_eq_true] at h
      obtain ⟨⟨hFl, hFe⟩, hFg⟩ := h
      rw [prune]
      split
      · rfl
      · next hl =>
          cases val with
          | some w => simp [fertile, hasVal, hFl, hFe, hFg]
          | none =>
              have hone : isNil lt = false ∨ isNil eq = false ∨ isNil gt = false := by
                by_contra hcon
                simp only [not_or, Bool.not_eq_false] at hcon
                exact hl (by simp [is_leaf, hcon.1, hcon.2.1, hcon.2.2])
              rcases hone with h | h | h
              · have := fertile_hasVal_of_ne hFl h
                simp [fertile, hasVal, hFl, hFe, hFg, this]
              · have := fertile_hasVal_of_ne hFe h
                simp [fertile, hasVal, hFl, hFe, hFg, this]
              · have := fertile_hasVal_of_ne hFg h
                simp [fertile, hasVal, hFl, hFe, hFg, this]

/-- After deletion from a dead-node-free tree every child subtree is
again dead-node-free, and so is the pruned result. -/
theorem fparts_remove_cons :
    ∀ (rest : List Char) (c : Char) (t : Node V),
      fertile t = true →
      fparts (remove (c :: rest) t).2 = true ∧
        fertile (prune (remove (c :: rest) t).2) = true := by
  intro rest
  induction rest with
  | nil =>
      intro c t
      induction t with
      | nil =>
          intro _
          exact ⟨rfl, rfl⟩
      | node c' lt eq gt val ihl ihe ihg =>
          intro ht
          simp only [fertile, Bool.and_eq_true] at ht
          obtain ⟨⟨⟨_, hFl⟩, hFe⟩, hFg⟩ := ht
          rw [remove_node]
          rcases lt_trichotomy c c' with h1 | h1 | h1
          · have hrec := (ihl hFl).2
            have hp : fparts (node c' (prune (remove [c] lt).2) eq gt val) = true := by
              simp [fparts, hrec, hFe, hFg]
            simp only [if_pos h1]
            exact ⟨hp, fertile_prune_of_fparts _ hp⟩
          · subst h1
            have hp : fparts (node c lt eq gt none) = true := by
              simp [fparts, hFl, hFe, hFg]
            simp only [if_neg (lt_irrefl c), lt_irrefl, if_false]
            exact ⟨hp, fertile_prune_of_fparts _ hp⟩
          · have hrec := (ihg hFg).2
            have hp : fparts (node c' lt eq (prune (remove [c] gt).2) val) = true := by
              simp [fparts, hrec, hFl, hFe]
            simp only [if_neg (lt_asymm h1), if_pos h1]
            exact ⟨hp, fertile_prune_of_fparts _ hp⟩
  | cons r1 rs IH =>
      intro c t
      induction t with
      | nil =>
          intro _
          exact ⟨rfl, rfl⟩
      | node c' lt eq gt val ihl ihe ihg =>
          intro ht
          simp only [fertile, Bool.and_eq_true] at ht
          obtain ⟨⟨⟨_, hFl⟩, hFe⟩, hFg⟩ := ht
          rw [remove_node]
          rcases lt_trichotomy c c' with h1 | h1 | h1
          · have hrec := (ihl hFl).2
            have hp : fparts
                (node c' (prune (remove (c :: r1 :: rs) lt).2) eq gt val) = true := by
              simp [fparts, hrec, hFe, hFg]
            simp only [if_pos h1]
            exact ⟨hp, fertile_prune_of_fparts _ hp⟩
          · subst h1
            have hrec := (IH r1 eq hFe).2
            have hp : fparts
                (node c lt (prune (remove (r1 :: rs) eq).2) gt val) = true := by
              simp [fparts, hrec, hFl, hFg]
            simp only [if_neg (lt_irrefl c), lt_irrefl, if_false]
            exact ⟨hp, fertile_prune_of_fparts _ hp⟩
          · have hrec := (ihg hFg).2
            have hp : fparts
                (node c' lt eq (prune (remove (c :: r1 :: rs) gt).2) val) = true := by
              simp [fparts, hrec, hFl, hFe]
            simp only [if_neg (lt_asymm h1), if_pos h1]
            exact ⟨hp, fertile_prune_of_fparts _ hp⟩

/-- In a dead-node-free tree a failed removal changes nothing. -/
theorem remove_unchanged_cons :
    ∀ (rest : List Char) (c : Char) (t : Node V),
      fertile t = true → (remove (c :: rest) t).1 = none →
      (remove (c :: rest) t).2 = t := by
  intro rest
  induction rest with
  | nil =>
      intro c t
      induction t with
      | nil => intro _ _; simp [remove_nil]
      | node c' lt eq gt val ihl ihe ihg =>
          intro ht hnone
          simp only [fertile, Bool.and_eq_true] at ht
          obtain ⟨⟨⟨_, hFl⟩, hFe⟩, hFg⟩ := ht
          rw [remove_node] at hnone ⊢
          rcases lt_trichotomy c c' with h1 | h1 | h1
          · simp only [if_pos h1] at hnone ⊢
            rw [ihl hFl hnone, prune_of_fertile hFl]
          · subst h1
            simp only [if_neg (lt_irrefl c), lt_irrefl, if_false] at hnone ⊢
            rw [hnone]
          · simp only [if_neg (lt_asymm h1), if_pos h1] at hnone ⊢
            rw [ihg hFg hnone, prune_of_fertile hFg]
  | cons r1 rs IH =>
      intro c t
      induction t with
      | nil => intro _ _; simp [remove_nil]
      | node c' lt eq gt val ihl ihe ihg =>
          intro ht hnone
          simp only [fertile, Bool.and_eq_true] at ht
          obtain ⟨⟨⟨_, hFl⟩, hFe⟩, hFg⟩ := ht
          rw [remove_node] at hnone ⊢
          rcases lt_trichotomy c c' with h1 | h1 | h1
          · simp only [if_pos h1] at hnone ⊢
            rw [ihl hFl hnone, prune_of_fertile hFl]
          · subst h1
            simp only [if_neg (lt_irrefl c), lt_irrefl, if_false] at hnone ⊢
            rw [IH r1 eq hFe hnone, prune_of_fertile hFe]
          · simp only [if_neg (lt_asymm h1), if_pos h1] at hnone ⊢
            rw [ihg hFg hnone, prune_of_fertile hFg]

theorem hasVal_numVals {t : Node V} (h : hasVal t = true) : 0 < numVals t := by
  induction t with
  | nil => simp [hasVal] at h
  | node c lt eq gt val ihl ihe ihg =>
      simp only [hasVal, Bool.or_eq_true] at h
      rcases h with ((hv | hl) | he) | hg
      · cases val with
        | none => simp at hv
        | some w => simp [numVals, ocnt]
      · have := ihl hl
        simp only [numVals]
        omega
      · have := ihe he
        simp only [numVals]
        omega
      · have := ihg hg
        simp only [numVals]
        omega

/-- A dead-node-free tree with no values is the absent tree. -/
theorem nil_of_fertile_numVals {t : Node V} (hf : fertile t = true)
    (h0 : numVals t = 0) : t = nil := by
  cases t with
  | nil => rfl
  | node c lt eq gt val =>
      have hv := fertile_hasVal_of_ne hf (by simp [isNil])
      have := hasVal_numVals hv
      omega

/-- Characterization of the two nested loops of `longest_prefix`: the
result is the starting record unless some non-empty prefix of the
remaining candidate is stored in the subtree, in which case it is the
consumed count plus the longest such prefix length. -/
theorem lpLen_spec :
    ∀ (cand : List Char) (t : Node V) (i len0 : Nat), len0 ≤ i →
      (lpLen cand i len0 t = len0 ∨
        ∃ j, 0 < j ∧ j ≤ cand.length ∧
          (find (cand.take j) t).isSome = true ∧
          lpLen cand i len0 t = i + j) ∧
      len0 ≤ lpLen cand i len0 t ∧
      (∀ j, 0 < j → j ≤ cand.length → (find (cand.take j) t).isSome = true →
        i + j ≤ lpLen cand i len0 t) := by
  intro cand
  induction cand with
  | nil =>
      intro t i len0 hle
      refine ⟨Or.inl rfl, le_refl _, ?_⟩
      intro j hj hjle _
      simp at hjle
      omega
  | cons k rest IH =>
      intro t
      induction t with
      | nil =>
          intro i len0 hle
          rw [lpLen_nil]
          refine ⟨Or.inl rfl, le_refl _, ?_⟩
          intro j hj hjle hfind
          rw [find_nil] at hfind
          simp at hfind
      | node c' lt eq gt val ihl ihe ihg =>
          intro i len0 hle
          rw [lpLen_node]
          rcases lt_trichotomy k c' with h1 | h1 | h1
          · rw [if_pos h1]
            have htake : ∀ j, 0 < j →
                find ((k :: rest).take j) (node c' lt eq gt val) =
                  find ((k :: rest).take j) lt := by
              intro j hj
              match j, hj with
              | j' + 1, _ =>
                  rw [List.take_succ_cons, find_node, if_pos h1]
            obtain ⟨ha, hb, hc⟩ := ihl i len0 hle
            refine ⟨?_, hb, ?_⟩
            · rcases ha with ha | ⟨j, hj1, hj2, hj3, hj4⟩
              · exact Or.inl ha
              · exact Or.inr ⟨j, hj1, hj2, by rw [htake j hj1]; exact hj3, hj4⟩
            · intro j hj hjle hfind
              rw [htake j hj] at hfind
              exact hc j hj hjle hfind
          · subst h1
            rw [if_neg (lt_irrefl k), if_neg (lt_irrefl k)]
            have hf1 : find ((k :: rest).take 1) (node k lt eq gt val) = val := by
              rw [show (k :: rest).take 1 = [k] from rfl, find_node,
                if_neg (lt_irrefl k), if_neg (lt_irrefl k)]
            have hfS : ∀ j', 0 < j' → j' ≤ rest.length →
                find ((k :: rest).take (j' + 1)) (node k lt eq gt val) =
                  find (rest.take j') eq := by
              intro j' hj' hj'le
              cases rest with
              | nil =>
                  simp at hj'le
                  omega
              | cons r1 rs =>
                  match j', hj' with
                  | j'' + 1, _ =>
                      rw [List.take_succ_cons, List.take_succ_cons, find_node,
                        if_neg (lt_irrefl k), if_neg (lt_irrefl k)]
            have hle' : (if val.isSome then i + 1 else len0) ≤ i + 1 := by
              split <;> omega
            obtain ⟨ha, hb, hc⟩ :=
              IH eq (i + 1) (if val.isSome then i + 1 else len0) hle'
            have hlen01 : len0 ≤ (if val.isSome then i + 1 else len0) := by
              split <;> omega
            refine ⟨?_, le_trans hlen01 hb, ?_⟩
            · rcases ha with ha | ⟨j', hj1, hj2, hj3, hj4⟩
              · by_cases hv : val.isSome = true
                · refine Or.inr ⟨1, one_pos, ?_, ?_, ?_⟩
                  · rw [List.length_cons]
                    omega
                  · rw [hf1]
                    exact hv
                  · rw [ha, if_pos hv]
                · refine Or.inl ?_
                  rw [ha, if_neg hv]
              · refine Or.inr ⟨j' + 1, by omega, ?_, ?_, by omega⟩
                · rw [List.length_cons]
                  omega
                · rw [hfS j' hj1 hj2]
                  exact hj3
            · intro j hj hjle hfind
              match j, hj with
              | 1, _ =>
                  rw [hf1] at hfind
                  have hb' := hb
                  rw [if_pos hfind] at hb' ⊢
                  omega
              | j'' + 2, _ =>
                  rw [List.length_cons] at hjle
                  rw [hfS (j'' + 1) (by omega) (by omega)] at hfind
                  have := hc (j'' + 1) (by omega) (by omega) hfind
                  omega
          · rw [if_neg (lt_asymm h1), if_pos h1]
            have htake : ∀ j, 0 < j →
                find ((k :: rest).take j) (node c' lt eq gt val) =
                  find ((k :: rest).take j) gt := by
              intro j hj
              match j, hj with
              | j' + 1, _ =>
                  rw [List.take_succ_cons, find_node, if_neg (lt_asymm h1),
                    if_pos h1]
            obtain ⟨ha, hb, hc⟩ := ihg i len0 hle
            refine ⟨?_, hb, ?_⟩
            · rcases ha with ha | ⟨j, hj1, hj2, hj3, hj4⟩
              · exact Or.inl ha
              · exact Or.inr ⟨j, hj1, hj2, by rw [htake j hj1]; exact hj3, hj4⟩
            · intro j hj hjle hfind
              rw [htake j hj] at hfind
              exact hc j hj hjle hfind

/-- All-ASCII byte slicing is character slicing. -/
theorem takeBytes_ascii :
    ∀ (n : Nat) (l : List Char), (∀ ch ∈ l, charBytes ch = 1) →
      n ≤ l.length → takeBytes n l = some (l.take n) := by
  intro n
  induction n with
  | zero => intro l _ _; simp [takeBytes]
  | succ n IH =>
      intro l hl hn
      cases l with
      | nil => simp at hn
      | cons c rest =>
          have hc : charBytes c = 1 := hl c (List.mem_cons_self _ _)
          rw [takeBytes, if_pos (by omega)]
          rw [hc]
          rw [show n + 1 - 1 = n from rfl]
          rw [IH rest (fun ch hch => hl ch (List.mem_cons_of_mem _ hch))
            (by rw [List.length_cons] at hn; omega)]
          simp [List.take_succ_cons]

theorem charBytes_pos (c : Char) : 0 < charBytes c := by
  rw [charBytes]
  split
  · omega
  · split
    · omega
    · split <;> omega

theorem utf8Len_nil : utf8Len ([] : List Char) = 0 := rfl

theorem utf8Len_cons (c : Char) (k : List Char) :
    utf8Len (c :: k) = charBytes c + utf8Len k := by
  simp [utf8Len]

theorem utf8Len_eq_zero {k : List Char} : utf8Len k = 0 ↔ k = [] := by
  cases k with
  | nil => simp [utf8Len_nil]
  | cons c rest =>
      rw [utf8Len_cons]
      have := charBytes_pos c
      constructor
      · intro h
        omega
      · intro h
        exact absurd h (by simp)

theorem utf8Len_replicate (n : Nat) (c : Char) :
    utf8Len (List.replicate n c) = n * charBytes c := by
  induction n with
  | zero => simp [utf8Len_nil]
  | succ n IH =>
      rw [List.replicate_succ, utf8Len_cons, IH]
      ring


end Node

namespace Frame

variable {V : Type}

/-- What a frame will eventually emit: a value-pending frame emits its
binding, a subtree-pending frame emits the in-order listing of its
subtree. -/
def denote : Frame V → List (List Char × V)
  | sub t pre => Node.toList t pre
  | pend k v => [(k, v)]

theorem w_pos (f : Frame V) : 0 < w f := by
  cases f with
  | sub t pre => exact nu_pos t
  | pend k v => simp [w]

end Frame

/-- The expansion pushes of one node denote exactly the in-order listing
of that node. -/
theorem pushes_denote_join {V : Type} (c : Char) (lt eq gt : Node V)
    (val : Option V) (pre : List Char) :
    ((Frame.pushes c lt eq gt val pre).map Frame.denote).flatten =
      Node.toList (Node.node c lt eq gt val) pre := by
  have seg : ∀ (u : Node V) (p : List Char),
      ((if Node.isNil u then [] else [Frame.sub u p]).map Frame.denote).flatten =
        Node.toList u p := by
    intro u p
    cases u with
    | nil => simp [Node.isNil, Node.toList]
    | node c2 l2 e2 g2 v2 => simp [Node.isNil, Frame.denote]
  have segv : ((match val with
      | some v => [Frame.pend (pre ++ [c]) v]
      | none => ([] : List (Frame V))).map Frame.denote).flatten =
      (match val with
       | some v => [(pre ++ [c], v)]
       | none => ([] : List (List Char × V))) := by
    cases val <;> simp [Frame.denote]
  simp only [Frame.pushes, List.map_append, List.flatten_append, seg, segv,
    Node.toList, List.append_assoc]

/-- The iterator loop emits exactly the concatenated denotations of its
stack, in order. -/
theorem iterRun_eq_denote {V : Type} :
    ∀ (n : Nat) (st : List (Frame V)), Frame.stackW st ≤ n →
      iterRun st = (st.map Frame.denote).flatten := by
  intro n
  induction n with
  | zero =>
      intro st h
      cases st with
      | nil => simp [iterRun]
      | cons f st' =>
          exfalso
          rw [Frame.stackW_cons] at h
          have := Frame.w_pos f
          omega
  | succ n IH =>
      intro st h
      match st with
      | [] => simp [iterRun]
      | .pend k v :: st' =>
          have hle : Frame.stackW st' ≤ n := by
            rw [Frame.stackW_cons] at h
            simp only [Frame.w] at h
            omega
          simp [iterRun, IH st' hle, Frame.denote]
      | .sub Node.nil pre :: st' =>
          have hle : Frame.stackW st' ≤ n := by
            rw [Frame.stackW_cons] at h
            simp only [Frame.w, Frame.nu] at h
            omega
          simp [iterRun, IH st' hle, Frame.denote, Node.toList]
      | .sub (Node.node c lt eq gt val) pre :: st' =>
          have hw := Frame.stackW_pushes c lt eq gt val pre
          have hle : Frame.stackW (Frame.pushes c lt eq gt val pre ++ st') ≤ n := by
            rw [Frame.stackW_append]
            rw [Frame.stackW_cons] at h
            simp only [Frame.w] at h
            omega
          rw [show iterRun (.sub (Node.node c lt eq gt val) pre :: st') =
              iterRun (Frame.pushes c lt eq gt val pre ++ st') from by
            simp [iterRun]]
          rw [IH _ hle]
          simp only [List.map_append, List.flatten_append, List.map_cons,
            List.flatten_cons, pushes_denote_join, Frame.denote]

/-- `iter()` run to a list is the in-order listing of the root. -/
theorem iterList_eq_toList {V : Type} (m : TSTMap V) :
    TSTMap.iterList m = Node.toList m.root [] := by
  rw [TSTMap.iterList, iterRun_eq_denote (Frame.stackW [Frame.sub m.root []]) _
    le_rfl]
  simp [Frame.denote]

namespace WFrame

variable {V : Type}

/-- What a wildcard frame will eventually emit. -/
def denote (pat : List Char) : WFrame V → List (List Char × V)
  | sub t pre idx => Node.recWild pat t pre idx
  | pend k v => [(k, v)]

/-- The pattern cursor of every subtree-pending frame stays inside the
pattern. -/
def ok (pat : List Char) : WFrame V → Prop
  | sub _ _ idx => idx < pat.length
  | pend _ _ => True

theorem ww_pos (f : WFrame V) : 0 < w f := by
  cases f with
  | sub t pre idx => exact Frame.nu_pos t
  | pend k v => simp [w]

theorem mem_if {α : Type} {P : Prop} [Decidable P] {x f : α}
    (h : f ∈ (if P then [x] else [])) : f = x ∧ P := by
  split at h
  · next hp => exact ⟨by simpa using h, hp⟩
  · simp at h

theorem pushes_ok {pat : List Char} {ch c : Char} {lt eq gt : Node V}
    {val : Option V} {pre : List Char} {idx : Nat} (hidx : idx < pat.length) :
    ∀ f ∈ pushes pat ch c lt eq gt val pre idx, ok pat f := by
  intro f hf
  simp only [pushes, List.mem_append] at hf
  rcases hf with ((h | h) | h) | h
  · obtain ⟨rfl, -⟩ := mem_if h
    exact hidx
  · cases val with
    | none => simp at h
    | some v =>
        obtain ⟨rfl, -⟩ := mem_if h
        trivial
  · obtain ⟨rfl, hP⟩ := mem_if h
    exact hP.2.1
  · obtain ⟨rfl, -⟩ := mem_if h
    exact hidx

end WFrame

/-- The expansion pushes of one wildcard node denote exactly the
recursive wildcard listing of that node. -/
theorem wpushes_denote_flatten {V : Type} (pat : List Char) (ch c : Char)
    (lt eq gt : Node V) (val : Option V) (pre : List Char) (idx : Nat)
    (hch : pat[idx]? = some ch) :
    ((WFrame.pushes pat ch c lt eq gt val pre idx).map
      (WFrame.denote pat)).flatten =
      Node.recWild pat (Node.node c lt eq gt val) pre idx := by
  have seg : ∀ (g : Prop) [Decidable g] (u : Node V) (p : List Char) (i : Nat),
      ((if g ∧ Node.isNil u = false then [WFrame.sub u p i] else []).map
        (WFrame.denote pat)).flatten =
        if g then Node.recWild pat u p i else [] := by
    intro g _ u p i
    by_cases hg : g
    · cases u with
      | nil => simp [hg, Node.isNil, Node.recWild]
      | node c2 l2 e2 g2 v2 => simp [hg, Node.isNil, WFrame.denote]
    · simp [hg]
  have sege : ∀ (g : Prop) [Decidable g] (hlt : Prop) [Decidable hlt]
      (u : Node V) (p : List Char) (i : Nat),
      ((if g ∧ hlt ∧ Node.isNil u = false then [WFrame.sub u p i] else []).map
        (WFrame.denote pat)).flatten =
        if g ∧ hlt then Node.recWild pat u p i else [] := by
    intro g _ hlt _ u p i
    by_cases hg : g ∧ hlt
    · cases u with
      | nil => simp [hg, hg.1, hg.2, Node.isNil, Node.recWild]
      | node c2 l2 e2 g2 v2 => simp [hg, hg.1, hg.2, Node.isNil, WFrame.denote]
    · rw [if_neg hg, if_neg (by tauto)]
      simp
  have segv : ((match val with
      | some v =>
          if (ch = '.' ∨ ch = c) ∧ idx + 1 = pat.length then
            [WFrame.pend (pre ++ [c]) v]
          else []
      | none => ([] : List (WFrame V))).map (WFrame.denote pat)).flatten =
      (if (ch = '.' ∨ ch = c) ∧ idx + 1 = pat.length then
        (match val with
         | some v => [(pre ++ [c], v)]
         | none => ([] : List (List Char × V)))
      else []) := by
    cases val with
    | none => simp
    | some v =>
        by_cases hg : (ch = '.' ∨ ch = c) ∧ idx + 1 = pat.length
        · simp [hg, WFrame.denote]
        · simp [hg]
  simp only [Node.recWild, hch]
  simp only [WFrame.pushes, List.map_append, List.flatten_append, seg, sege,
    segv, List.append_assoc]

/-- The recursive wildcard listing of an ordered subtree is exactly the
in-order listing filtered by pattern match on the key suffix beyond the
accumulated prefix. -/
theorem recWild_eq_filter {V : Type} (pat : List Char) :
    ∀ (t : Node V) (lo hi : Option Char) (pre : List Char) (idx : Nat),
      Node.ordered t lo hi = true → idx < pat.length →
      Node.recWild pat t pre idx =
        (Node.toList t pre).filter
          (fun q => Node.wcMatch (pat.drop idx) (q.1.drop pre.length)) := by
  intro t
  induction t with
  | nil => intro lo hi pre idx _ _; simp [Node.recWild, Node.toList]
  | node c lt eq gt val ihl ihe ihg =>
      intro lo hi pre idx ht hidx
      simp only [Node.ordered, Bool.and_eq_true] at ht
      obtain ⟨⟨⟨⟨hA, hB⟩, hC⟩, hD⟩, hE⟩ := ht
      have hdrop : pat.drop idx = pat[idx] :: pat.drop (idx + 1) :=
        List.drop_eq_getElem_cons hidx
      simp only [Node.recWild, List.getElem?_eq_getElem hidx, Node.toList,
        List.filter_append]
      have segA : (if pat[idx] = '.' ∨ pat[idx] < c then
            Node.recWild pat lt pre idx
          else []) =
          (Node.toList lt pre).filter
            (fun q => Node.wcMatch (pat.drop idx) (q.1.drop pre.length)) := by
        by_cases hg : pat[idx] = '.' ∨ pat[idx] < c
        · rw [if_pos hg, ihl lo (some c) pre idx hC hidx]
        · rw [if_neg hg]
          symm
          rw [List.filter_eq_nil_iff]
          intro q hq
          obtain ⟨c', r', hk, _, hh⟩ := Node.toList_shape lt lo (some c) pre hC q hq
          have hc' : c' < c := by simpa [Node.okHi] using hh
          rw [hk, List.drop_left, hdrop]
          simp only [Node.wcMatch, Bool.and_eq_true, Bool.or_eq_true,
            decide_eq_true_eq]
          rintro ⟨h1 | h1, -⟩
          · exact hg (Or.inl h1)
          · exact hg (Or.inr (h1 ▸ hc'))
      have segB : (if (pat[idx] = '.' ∨ pat[idx] = c) ∧ idx + 1 = pat.length then
            (match val with
             | some v => [(pre ++ [c], v)]
             | none => ([] : List (List Char × V)))
          else []) =
          (match val with
           | some v => [(pre ++ [c], v)]
           | none => ([] : List (List Char × V))).filter
            (fun q => Node.wcMatch (pat.drop idx) (q.1.drop pre.length)) := by
        cases val with
        | none => simp
        | some v =>
            have hkey : ((pre ++ [c], v) : List Char × V).1.drop pre.length = [c] := by
              simp [List.drop_left]
            by_cases hlen : idx + 1 = pat.length
            · have hdp : pat.drop (idx + 1) = [] :=
                List.drop_eq_nil_of_le (by omega)
              by_cases hg : pat[idx] = '.' ∨ pat[idx] = c
              · rw [if_pos ⟨hg, hlen⟩]
                rw [List.filter_cons]
                rw [show (Node.wcMatch (pat.drop idx)
                    (((pre ++ [c], v) : List Char × V).1.drop pre.length)) = true by
                  rw [hkey, hdrop, hdp]
                  simp [Node.wcMatch]
                  tauto]
                simp
              · rw [if_neg (by tauto)]
                symm
                rw [List.filter_eq_nil_iff]
                intro q hq
                simp only [List.mem_singleton] at hq
                subst hq
                rw [hkey, hdrop, hdp]
                simp only [Node.wcMatch, Bool.and_eq_true, Bool.or_eq_true,
                  decide_eq_true_eq]
                rintro ⟨h1 | h1, -⟩
                · exact hg (Or.inl h1)
                · exact hg (Or.inr h1)
            · rw [if_neg (by tauto)]
              symm
              rw [List.filter_eq_nil_iff]
              intro q hq
              simp only [List.mem_singleton] at hq
              subst hq
              have hlt : idx + 1 < pat.length := by omega
              have hdp : pat.drop (idx + 1) =
                  pat[idx + 1] :: pat.drop (idx + 2) :=
                List.drop_eq_getElem_cons hlt
              rw [hkey, hdrop, hdp]
              simp [Node.wcMatch]
      have segC : (if (pat[idx] = '.' ∨ pat[idx] = c) ∧ idx + 1 < pat.length then
            Node.recWild pat eq (pre ++ [c]) (idx + 1)
          else []) =
          (Node.toList eq (pre ++ [c])).filter
            (fun q => Node.wcMatch (pat.drop idx) (q.1.drop pre.length)) := by
        by_cases hg : (pat[idx] = '.' ∨ pat[idx] = c) ∧ idx + 1 < pat.length
        · rw [if_pos hg, ihe none none (pre ++ [c]) (idx + 1) hE hg.2]
          apply List.filter_congr
          intro q hq
          obtain ⟨ce, re, hk, _, _⟩ :=
            Node.toList_shape eq none none (pre ++ [c]) hE q hq
          rw [hk]
          rw [List.drop_left]
          rw [show (pre ++ [c]) ++ ce :: re = pre ++ c :: ce :: re by
            rw [List.append_assoc]
            rfl]
          rw [List.drop_left, hdrop]
          simp only [Node.wcMatch, Bool.or_eq_true, decide_eq_true_eq]
          rcases hg.1 with h1 | h1 <;> simp [h1]
        · rw [if_neg hg]
          symm
          rw [List.filter_eq_nil_iff]
          intro q hq
          obtain ⟨ce, re, hk, _, _⟩ :=
            Node.toList_shape eq none none (pre ++ [c]) hE q hq
          rw [hk]
          rw [show (pre ++ [c]) ++ ce :: re = pre ++ c :: ce :: re by
            rw [List.append_assoc]
            rfl]
          rw [List.drop_left, hdrop]
          by_cases hh : pat[idx] = '.' ∨ pat[idx] = c
          · have hlen : idx + 1 = pat.length := by
              rcases Nat.lt_or_ge (idx + 1) pat.length with h | h
              · exact absurd ⟨hh, h⟩ hg
              · omega
            have hdp : pat.drop (idx + 1) = [] :=
              List.drop_eq_nil_of_le (by omega)
            rw [hdp]
            simp [Node.wcMatch]
          · simp only [Node.wcMatch, Bool.and_eq_true, Bool.or_eq_true,
              decide_eq_true_eq]
            rintro ⟨h1 | h1, -⟩
            · exact hh (Or.inl h1)
            · exact hh (Or.inr h1)
      have segD : (if pat[idx] = '.' ∨ c < pat[idx] then
            Node.recWild pat gt pre idx
          else []) =
          (Node.toList gt pre).filter
            (fun q => Node.wcMatch (pat.drop idx) (q.1.drop pre.length)) := by
        by_cases hg : pat[idx] = '.' ∨ c < pat[idx]
        · rw [if_pos hg, ihg (some c) hi pre idx hD hidx]
        · rw [if_neg hg]
          symm
          rw [List.filter_eq_nil_iff]
          intro q hq
          obtain ⟨c', r', hk, hl, _⟩ := Node.toList_shape gt (some c) hi pre hD q hq
          have hc' : c < c' := by simpa [Node.okLo] using hl
          rw [hk, List.drop_left, hdrop]
          simp only [Node.wcMatch, Bool.and_eq_true, Bool.or_eq_true,
            decide_eq_true_eq]
          rintro ⟨h1 | h1, -⟩
          · exact hg (Or.inl h1)
          · exact hg (Or.inr (h1 ▸ hc'))
      rw [segA, segB, segC, segD]

/-- The wildcard loop emits exactly the concatenated denotations of its
stack while every cursor stays inside the pattern. -/
theorem wildRun_eq_denote {V : Type} (pat : List Char) :
    ∀ (n : Nat) (st : List (WFrame V)), WFrame.stackW st ≤ n →
      (∀ f ∈ st, WFrame.ok pat f) →
      wildRun pat st = some ((st.map (WFrame.denote pat)).flatten) := by
  intro n
  induction n with
  | zero =>
      intro st h hok
      cases st with
      | nil => simp [wildRun]
      | cons f st' =>
          exfalso
          rw [WFrame.wstackW_cons] at h
          have := WFrame.ww_pos f
          omega
  | succ n IH =>
      intro st h hok
      match st with
      | [] => simp [wildRun]
      | .pend k v :: st' =>
          have hle : WFrame.stackW st' ≤ n := by
            rw [WFrame.wstackW_cons] at h
            simp only [WFrame.w] at h
            omega
          have hok' : ∀ f ∈ st', WFrame.ok pat f := fun f hf =>
            hok f (List.mem_cons_of_mem _ hf)
          simp [wildRun, IH st' hle hok', WFrame.denote]
      | .sub Node.nil pre idx :: st' =>
          have hle : WFrame.stackW st' ≤ n := by
            rw [WFrame.wstackW_cons] at h
            simp only [WFrame.w, Frame.nu] at h
            omega
          have hok' : ∀ f ∈ st', WFrame.ok pat f := fun f hf =>
            hok f (List.mem_cons_of_mem _ hf)
          simp [wildRun, IH st' hle hok', WFrame.denote, Node.recWild]
      | .sub (Node.node c lt eq gt val) pre idx :: st' =>
          have hidx : idx < pat.length := hok _ (List.mem_cons_self _ _)
          obtain ⟨ch, hch⟩ : ∃ ch, pat[idx]? = some ch := by
            rw [List.getElem?_eq_getElem hidx]
            exact ⟨_, rfl⟩
          have hw := WFrame.wstackW_pushes pat ch c lt eq gt val pre idx
          have hle : WFrame.stackW
              (WFrame.pushes pat ch c lt eq gt val pre idx ++ st') ≤ n := by
            rw [WFrame.wstackW_append]
            rw [WFrame.wstackW_cons] at h
            simp only [WFrame.w] at h
            omega
          have hok' : ∀ f ∈ WFrame.pushes pat ch c lt eq gt val pre idx ++ st',
              WFrame.ok pat f := by
            intro f hf
            rcases List.mem_append.1 hf with hf | hf
            · exact WFrame.pushes_ok hidx f hf
            · exact hok f (List.mem_cons_of_mem _ hf)
          rw [show wildRun pat (.sub (Node.node c lt eq gt val) pre idx :: st') =
              wildRun pat (WFrame.pushes pat ch c lt eq gt val pre idx ++ st')
              from by simp [wildRun, hch]]
          rw [IH _ hle hok']
          rw [List.map_cons, List.flatten_cons]
          simp only [List.map_append, List.flatten_append, WFrame.denote,
            wpushes_denote_flatten pat ch c lt eq gt val pre idx hch]

/-- `wildcard_iter` run to a list, for a non-empty pattern: no panic,
and the output is the recursive wildcard listing from the root. -/
theorem wildcardList_eq_recWild {V : Type} (m : TSTMap V) (pat : List Char)
    (hpat : pat ≠ []) :
    TSTMap.wildcardList m pat = some (Node.recWild pat m.root [] 0) := by
  rw [TSTMap.wildcardList,
    wildRun_eq_denote pat (WFrame.stackW [WFrame.sub m.root [] 0]) _ le_rfl]
  · simp [WFrame.denote]
  · intro f hf
    simp only [List.mem_singleton] at hf
    subst hf
    have : 0 < pat.length := List.length_pos.2 hpat
    exact this

/-!
Map-level invariants and lemmas.
-/

namespace TSTMap

variable {V : Type}

/-- The root tree satisfies the ternary-search ordering invariant.
Preserved by every public operation. -/
def invOrd (m : TSTMap V) : Prop := Node.ordered m.root none none = true

/-- Full invariant of containers built by `insert`/`remove`/`clear`:
ordering, no dead nodes, and the cached size equals the number of
value-holding nodes. -/
def invFull (m : TSTMap V) : Prop :=
  Node.ordered m.root none none = true ∧ Node.fertile m.root = true ∧
    m.size = Node.numVals m.root

theorem invFull_new : invFull (new : TSTMap V) := ⟨rfl, rfl, rfl⟩

theorem ne_nil_of_cons {c : Char} {rest : List Char} :
    0 < Node.utf8Len (c :: rest) := by
  rw [Node.utf8Len_cons]
  have := Node.charBytes_pos c
  omega

/-- Normal form of a successful `insert`. -/
theorem insert_ok (m : TSTMap V) (k : List Char) (v : V)
    (h0 : k ≠ []) (h2 : Node.utf8Len k < 2000) :
    insert m k v =
      .ok (get m k,
        ⟨(Node.insertWith k (fun _ => some v) m.root).1,
          if (get m k).isNone then m.size + 1 else m.size⟩) := by
  obtain ⟨c, rest, rfl⟩ : ∃ c rest, k = c :: rest := by
    cases k with
    | nil => exact absurd rfl h0
    | cons c rest => exact ⟨c, rest, rfl⟩
  rw [TSTMap.insert, if_pos ne_nil_of_cons, if_pos h2]
  simp only [TSTMap.get]
  rw [Node.insertWith_snd rest c (fun _ => some v) m.root]

/-- `insert` rejects the empty key. -/
theorem insert_empty (m : TSTMap V) (v : V) :
    insert m [] v = .error "Empty key" := rfl

/-- `insert` rejects keys of 2000 or more bytes. -/
theorem insert_too_long (m : TSTMap V) (k : List Char) (v : V)
    (h2 : 2000 ≤ Node.utf8Len k) :
    insert m k v = .error "Key is too long" := by
  rw [TSTMap.insert]
  rw [if_pos (by omega), if_neg (by omega)]

/-- Lookup in the container after a successful insert. -/
theorem get_insert (m : TSTMap V) (k : List Char) (v : V) (q : List Char)
    (h0 : k ≠ []) :
    get ⟨(Node.insertWith k (fun _ => some v) m.root).1, s⟩ q =
      if q = k then some v else get m q := by
  obtain ⟨c, rest, rfl⟩ : ∃ c rest, k = c :: rest := by
    cases k with
    | nil => exact absurd rfl h0
    | cons c rest => exact ⟨c, rest, rfl⟩
  simp only [TSTMap.get]
  rw [Node.find_insertWith rest c (fun _ => some v) m.root q]

/-- The value returned by `remove` is what lookup finds. -/
theorem remove_fst (m : TSTMap V) (k : List Char) :
    (remove m k).1 = get m k := by
  cases k with
  | nil => rfl
  | cons c rest =>
      rw [TSTMap.remove]
      simp only [TSTMap.get]
      rw [← Node.remove_fst_cons rest c m.root]
      rcases hr : (Node.remove (c :: rest) m.root).1 with _ | v <;> simp [hr]

/-- Lookup in the container after `remove`. -/
theorem get_remove (m : TSTMap V) (k q : List Char) :
    get (remove m k).2 q = if q = k then none else get m q := by
  cases k with
  | nil =>
      rcases q with _ | ⟨q1, qs⟩
      · simp [TSTMap.remove, Node.remove, TSTMap.get, Node.find]
      · simp [TSTMap.remove, Node.remove, TSTMap.get]
  | cons c rest =>
      rw [TSTMap.remove]
      rcases hr : (Node.remove (c :: rest) m.root).1 with _ | v
      · simp only [TSTMap.get]
        rw [Node.find_remove_cons rest c m.root q]
      · simp only [TSTMap.get]
        rw [show Node.find q (if Node.is_leaf (Node.remove (c :: rest) m.root).2
            then Node.nil else (Node.remove (c :: rest) m.root).2) =
            Node.find q (Node.prune (Node.remove (c :: rest) m.root).2) from rfl]
        rw [Node.find_prune]
        rw [Node.find_remove_cons rest c m.root q]

/-- A failed removal from a dead-node-free container changes nothing. -/
theorem remove_none_eq (m : TSTMap V) (k : List Char)
    (hf : Node.fertile m.root = true) (h : (remove m k).1 = none) :
    (remove m k).2 = m := by
  cases k with
  | nil => rfl
  | cons c rest =>
      rcases hr : (Node.remove (c :: rest) m.root).1 with _ | v
      · rw [TSTMap.remove]
        simp only [hr]
        rw [Node.remove_unchanged_cons rest c m.root hf hr]
      · exfalso
        rw [TSTMap.remove] at h
        simp only [hr] at h
        simp at h

/-- `applyOp` preserves the ordering invariant. -/
theorem invOrd_applyOp (m : TSTMap V) (op : Op V) (h : invOrd m) :
    invOrd (applyOp m op) := by
  cases op with
  | ins k v =>
      rw [applyOp]
      rcases hk : TSTMap.insert m k v with p | p
      · exact h
      · rcases p with ⟨old, m'⟩
        rw [TSTMap.insert] at hk
        by_cases h0 : 0 < Node.utf8Len k
        · by_cases h2 : Node.utf8Len k < 2000
          · rw [if_pos h0, if_pos h2] at hk
            obtain ⟨c, rest, rfl⟩ : ∃ c rest, k = c :: rest := by
              cases k with
              | nil => simp [Node.utf8Len_nil] at h0
              | cons c rest => exact ⟨c, rest, rfl⟩
            injection hk with hk
            injection hk with hk1 hk2
            rw [← hk2]
            exact Node.ordered_insertWith rest c _ m.root none none h rfl rfl
          · rw [if_pos h0, if_neg h2] at hk
            exact absurd hk (by simp)
        · rw [if_neg h0] at hk
          exact absurd hk (by simp)
  | del k =>
      rw [applyOp]
      cases k with
      | nil => exact h
      | cons c rest =>
          rw [TSTMap.remove]
          rcases hr : (Node.remove (c :: rest) m.root).1 with _ | v
          · exact Node.ordered_remove_cons rest c m.root none none h
          · show Node.ordered
              (Node.prune (Node.remove (c :: rest) m.root).2) none none = true
            exact Node.ordered_prune (Node.ordered_remove_cons rest c m.root none none h)
  | orIns k d =>
      rw [applyOp]
      rcases hk : TSTMap.entry_or_insert m k d with m' | m'
      · exact h
      · rw [TSTMap.entry_or_insert] at hk
        by_cases h0 : 0 < Node.utf8Len k
        · rw [if_pos h0] at hk
          obtain ⟨c, rest, rfl⟩ : ∃ c rest, k = c :: rest := by
            cases k with
            | nil => simp [Node.utf8Len_nil] at h0
            | cons c rest => exact ⟨c, rest, rfl⟩
          injection hk with hk
          rw [← hk]
          exact Node.ordered_insertWith rest c _ m.root none none h rfl rfl
        · rw [if_neg h0] at hk
          exact absurd hk (by simp)
  | clear => rfl

theorem invOrd_foldl (ops : List (Op V)) :
    ∀ (m : TSTMap V), invOrd m → invOrd (ops.foldl applyOp m) := by
  induction ops with
  | nil => intro m h; exact h
  | cons op ops IH =>
      intro m h
      exact IH _ (invOrd_applyOp m op h)

/-- Every container reachable by public operations satisfies the
ordering invariant. -/
theorem invOrd_build (ops : List (Op V)) : invOrd (build ops) :=
  invOrd_foldl ops new rfl

/-- `insert` preserves the full invariant. -/
theorem invFull_ins (m : TSTMap V) (k : List Char) (v : V) (h : invFull m) :
    invFull (applyOp m (Op.ins k v)) := by
  obtain ⟨hor, hf, hs⟩ := h
  rw [applyOp]
  rcases hk : TSTMap.insert m k v with p | p
  · exact ⟨hor, hf, hs⟩
  · rcases p with ⟨old, m'⟩
    rw [TSTMap.insert] at hk
    by_cases h0 : 0 < Node.utf8Len k
    · by_cases h2 : Node.utf8Len k < 2000
      · rw [if_pos h0, if_pos h2] at hk
        obtain ⟨c, rest, rfl⟩ : ∃ c rest, k = c :: rest := by
          cases k with
          | nil => simp [Node.utf8Len_nil] at h0
          | cons c rest => exact ⟨c, rest, rfl⟩
        injection hk with hk
        injection hk with hk1 hk2
        rw [← hk2]
        refine ⟨Node.ordered_insertWith rest c _ m.root none none hor rfl rfl,
          Node.fertile_insertWith rest c _ m.root (fun x => rfl) hf, ?_⟩
        have hnum := Node.numVals_insertWith rest c (fun _ => some v) m.root
        have hsnd := Node.insertWith_snd rest c (fun _ => some v) m.root
        show (if (Node.insertWith (c :: rest) (fun _ => some v) m.root).2.isNone
            then m.size + 1 else m.size) =
          Node.numVals (Node.insertWith (c :: rest) (fun _ => some v) m.root).1
        rw [hsnd]
        rcases hov : Node.find (c :: rest) m.root with _ | w
        · rw [hov] at hnum
          simp only [Node.ocnt] at hnum
          rw [if_pos (by simp : ((none : Option V).isNone = true))]
          omega
        · rw [hov] at hnum
          simp only [Node.ocnt] at hnum
          rw [if_neg (by simp : ¬((some w : Option V).isNone = true))]
          omega
      · rw [if_pos h0, if_neg h2] at hk
        exact absurd hk (by simp)
    · rw [if_neg h0] at hk
      exact absurd hk (by simp)

/-- `remove` preserves the full invariant. -/
theorem invFull_del (m : TSTMap V) (k : List Char) (h : invFull m) :
    invFull (applyOp m (Op.del k)) := by
  obtain ⟨hor, hf, hs⟩ := h
  rw [applyOp]
  cases k with
  | nil => exact ⟨hor, hf, hs⟩
  | cons c rest =>
      rw [TSTMap.remove]
      rcases hr : (Node.remove (c :: rest) m.root).1 with _ | v
      · have := Node.remove_unchanged_cons rest c m.root hf hr
        rw [this]
        exact ⟨hor, hf, hs⟩
      · have hnum := Node.numVals_remove_cons rest c m.root
        have hfst := Node.remove_fst_cons rest c m.root
        rw [hfst] at hr
        rw [hr] at hnum
        simp only [Node.ocnt] at hnum
        have hparts := Node.fparts_remove_cons rest c m.root hf
        refine ⟨?_, ?_, ?_⟩
        · exact Node.ordered_prune (Node.ordered_remove_cons rest c m.root none none hor)
        · exact hparts.2
        · show m.size - 1 =
            Node.numVals (Node.prune (Node.remove (c :: rest) m.root).2)
          rw [Node.numVals_prune]
          omega

/-- Containers built by inserts alone satisfy the full invariant. -/
theorem invFull_fromList (ps : List (List Char × V)) : invFull (fromList ps) := by
  rw [fromList]
  have : ∀ (l : List (List Char × V)) (m : TSTMap V), invFull m →
      invFull (l.foldl (fun m p => applyOp m (Op.ins p.1 p.2)) m) := by
    intro l
    induction l with
    | nil => intro m h; exact h
    | cons p l IH =>
        intro m h
        exact IH _ (invFull_ins m p.1 p.2 h)
  exact this ps new invFull_new

/-- A key found in a container built by inserts was inserted. -/
theorem get_fromList_mem (ps : List (List Char × V)) (k : List Char)
    (h : (get (fromList ps) k).isSome = true) : k ∈ ps.map Prod.fst := by
  rw [fromList] at h
  have main : ∀ (l : List (List Char × V)) (m : TSTMap V),
      (get (l.foldl (fun m p => applyOp m (Op.ins p.1 p.2)) m) k).isSome = true →
      (get m k).isSome = true ∨ k ∈ l.map Prod.fst := by
    intro l
    induction l with
    | nil => intro m h; exact Or.inl h
    | cons p l IH =>
        intro m h
        rcases IH _ h with h' | h'
        · simp only [applyOp] at h'
          rcases hk : TSTMap.insert m p.1 p.2 with q | q
          · rw [hk] at h'
            exact Or.inl h'
          · rcases q with ⟨old, m'⟩
            rw [hk] at h'
            rw [TSTMap.insert] at hk
            by_cases h0 : 0 < Node.utf8Len p.1
            · by_cases h2 : Node.utf8Len p.1 < 2000
              · rw [if_pos h0, if_pos h2] at hk
                obtain ⟨c, rest, hps⟩ : ∃ c rest, p.1 = c :: rest := by
                  rcases hp1 : p.1 with _ | ⟨c, rest⟩
                  · rw [hp1] at h0
                    simp [Node.utf8Len_nil] at h0
                  · exact ⟨c, rest, rfl⟩
                injection hk with hk
                injection hk with hk1 hk2
                rw [← hk2] at h'
                simp only [TSTMap.get] at h'
                rw [hps] at h'
                rw [Node.find_insertWith rest c _ m.root k] at h'
                by_cases hqk : k = c :: rest
                · right
                  rw [List.mem_map]
                  exact ⟨p, List.mem_cons_self _ _, by rw [hps, hqk]⟩
                · rw [if_neg hqk] at h'
                  exact Or.inl h'
              · rw [if_pos h0, if_neg h2] at hk
                exact absurd hk (by simp)
            · rw [if_neg h0] at hk
              exact absurd hk (by simp)
        · right
          rw [List.map_cons]
          exact List.mem_cons_of_mem _ h'
  rcases main ps new h with h' | h'
  · simp [TSTMap.get, TSTMap.new, Node.find_nil] at h'
  · exact h'

end TSTMap

namespace TSTMap

variable {V : Type}

/-- Lookup after removing a list of keys. -/
theorem get_removeAll (ks : List (List Char)) :
    ∀ (m : TSTMap V) (q : List Char),
      get (removeAll m ks) q = if q ∈ ks then none else get m q := by
  induction ks with
  | nil => intro m q; simp [removeAll]
  | cons k ks IH =>
      intro m q
      rw [show removeAll m (k :: ks) = removeAll (remove m k).2 ks from rfl]
      rw [IH]
      by_cases hq : q ∈ ks
      · simp [hq]
      · rw [if_neg hq, get_remove]
        by_cases hqk : q = k
        · simp [hqk]
        · simp [hqk, hq]

/-- Removing keys preserves the full invariant. -/
theorem invFull_removeAll (ks : List (List Char)) :
    ∀ (m : TSTMap V), invFull m → invFull (removeAll m ks) := by
  induction ks with
  | nil => intro m h; exact h
  | cons k ks IH =>
      intro m h
      exact IH _ (invFull_del m k h)

/-- A container with the full invariant and no bindings is the freshly
constructed empty container. -/
theorem eq_new_of_no_bindings (m : TSTMap V) (h : invFull m)
    (hget : ∀ q, get m q = none) : m = new := by
  obtain ⟨hor, hf, hs⟩ := h
  have htl : Node.toList m.root [] = [] := by
    cases htl : Node.toList m.root [] with
    | nil => rfl
    | cons a l =>
        exfalso
        have ha : a ∈ Node.toList m.root [] := htl ▸ List.mem_cons_self a l
        have hmem : (([] : List Char) ++ a.1, a.2) ∈ Node.toList m.root [] := by
          simpa using ha
        have hfind := (Node.mem_toList_iff_find m.root none none [] a.1 a.2 hor).1 hmem
        have h2 := hget a.1
        rw [TSTMap.get] at h2
        rw [h2] at hfind
        exact absurd hfind (by simp)
  have hnum : Node.numVals m.root = 0 := by
    rw [Node.numVals_toList m.root [], htl]
    rfl
  have hroot := Node.nil_of_fertile_numVals hf hnum
  have hsz : m.size = 0 := by rw [hs, hnum]
  cases m with
  | mk root size =>
      simp only at hroot hsz
      rw [new, hroot, hsz]

end TSTMap

namespace Node

variable {V : Type}

/-- In a list with strictly ascending keys, filtering on the key of a
listed binding keeps exactly that binding. -/
theorem filter_key_singleton :
    ∀ (l : List (List Char × V)) (k : List Char) (v : V),
      l.Pairwise (fun a b => keyLt a.1 b.1 = true) → (k, v) ∈ l →
      l.filter (fun p => decide (p.1 = k)) = [(k, v)] := by
  intro l
  induction l with
  | nil => intro k v _ hm; simp at hm
  | cons a l IH =>
      intro k v hp hm
      rw [List.pairwise_cons] at hp
      rcases List.mem_cons.1 hm with ha | ha
      · subst ha
        rw [List.filter_cons, if_pos (by simp)]
        have hrest : l.filter (fun p => decide (p.1 = k)) = [] := by
          rw [List.filter_eq_nil_iff]
          intro b hb
          have hkb := hp.1 b hb
          simp only [decide_eq_true_eq]
          intro hbk
          rw [hbk] at hkb
          have h3 : keyLt k k = true := hkb
          rw [keyLt_irrefl] at h3
          exact absurd h3 (by simp)
        rw [hrest]
      · have hak : ¬ (a.1 = k) := by
          intro hcon
          have h2 := hp.1 (k, v) ha
          rw [hcon] at h2
          have h3 : keyLt k k = true := h2
          rw [keyLt_irrefl] at h3
          exact absurd h3 (by simp)
        rw [List.filter_cons, if_neg (by simp [hak])]
        exact IH k v hp.2 ha

end Node


/-!
Claim theorems.  Each `claim_Cn...` theorem settles one claim of the
frozen claim list against the embedding above.
-/

/-- Insertions of the wildcard test fixture (`prepare_data` of the test
suite): thirteen BY-words. -/
def prepOps : List (Op Int) :=
  [Op.ins ( "BY".data) 1, Op.ins ( "BYGONE".data) 3, Op.ins ( "BYE".data) 2,
   Op.ins ( "BYLAW".data) 4, Op.ins ( "BYLINE".data) 5, Op.ins ( "BYPASS".data) 6,
   Op.ins ( "BYPATH".data) 7, Op.ins ( "BYPRODUCT".data) 8, Op.ins ( "BYROAD".data) 9,
   Op.ins ( "BYSTANDER".data) 10, Op.ins ( "BYTE".data) 11, Op.ins ( "BYWAY".data) 12,
   Op.ins ( "BYWORD".data) 13]

/-- Insertions of the longest-prefix fixture of the claim. -/
def ops6 : List (Op Int) :=
  [Op.ins ( "abc".data) 1, Op.ins ( "abcd".data) 1, Op.ins ( "abce".data) 1,
   Op.ins ( "abca".data) 1, Op.ins ( "add".data) 1, Op.ins ( "abcdef".data) 1]

/-- Claim C1 (code bug): after `entry(k)` on an absent key followed by a
vacant-entry insert, the cached size has NOT increased — the container
reports length 0 while exactly one node holds a value (and lookup finds
it).  This contradicts the claim (and the repository test
`entry_vacant`, which asserts `1 == m.len()` after exactly this
sequence): `VacantEntry::insert` never touches the size counter. -/
theorem claim_C1_entry_vacant_size :
    (build [Op.orIns ( "abcdg".data) (100 : Int)]).size = 0 ∧
    Node.numVals (build [Op.orIns ( "abcdg".data) (100 : Int)]).root = 1 ∧
    TSTMap.get (build [Op.orIns ( "abcdg".data) (100 : Int)]) ( "abcdg".data) =
      some 100 := by
  decide

/-- Claim C2 (code bug): inserting a key of one million characters does
not succeed — `insert` asserts `key.len() < 2000` and panics with "Key
is too long", contradicting the claim and the repository test
`insert_remove_get_big_key_not_overflow_stack`, which inserts exactly
such a key and expects success. -/
theorem claim_C2_million_char_key :
    TSTMap.insert (TSTMap.new : TSTMap Int) (List.replicate 1000000 'q') 666 =
      .error "Key is too long" := by
  apply TSTMap.insert_too_long
  rw [Node.utf8Len_replicate]
  rw [show Node.charBytes 'q' = 1 from by decide]
  omega

/-- Claim C3 (counterexample): two containers built by inserting the
same (key, value) pairs in different orders hold the same bindings yet
do NOT compare equal — the derived equality compares tree structure,
which depends on insertion order (as the comment above the derive in
map.rs states). -/
theorem claim_C3_counterexample :
    ¬ (build [Op.ins ( "a".data) (1 : Int), Op.ins ( "b".data) 2] =
      build [Op.ins ( "b".data) (2 : Int), Op.ins ( "a".data) 1]) ∧
    Node.toList (build [Op.ins ( "a".data) (1 : Int), Op.ins ( "b".data) 2]).root
        [] =
      Node.toList (build [Op.ins ( "b".data) (2 : Int), Op.ins ( "a".data) 1]).root
        [] := by
  decide

/-- Claim C3 (amended): equality of containers is structural — two
containers are equal iff their root trees are identical and their sizes
are equal; equal containers hold the same bindings, but containers with
the same bindings inserted in different orders may compare unequal. -/
theorem claim_C3_structural_eq :
    ∀ (m1 m2 : TSTMap Int),
      (m1 = m2 ↔ m1.root = m2.root ∧ m1.size = m2.size) ∧
      (m1 = m2 → ∀ k, TSTMap.get m1 k = TSTMap.get m2 k) := by
  intro m1 m2
  constructor
  · constructor
    · intro h
      rw [h]
      exact ⟨rfl, rfl⟩
    · intro h
      obtain ⟨h1, h2⟩ := h
      cases m1
      cases m2
      simp only at h1 h2
      rw [h1, h2]
  · intro h k
    rw [h]

/-- Witness for the amended C3 theorem at a concrete input. -/
theorem claim_C3_structural_eq_witness :
    TSTMap.get (TSTMap.new : TSTMap Int) [] = TSTMap.get TSTMap.new [] :=
  (claim_C3_structural_eq TSTMap.new TSTMap.new).2 rfl []

/-- Claim C4 (confirmed): for every container reachable by the public
operations, `iter()` yields keys in strictly ascending lexicographic
order and lists exactly the stored bindings; concretely, inserting
b→2, a→1, c→4, aa→13 makes iter() yield exactly
[(a,1), (aa,13), (b,2), (c,4)]. -/
theorem claim_C4_iter_sorted_complete :
    (∀ (ops : List (Op Int)),
      (TSTMap.iterList (build ops)).Pairwise
        (fun a b => Node.keyLt a.1 b.1 = true) ∧
      (∀ (k : List Char) (v : Int),
        (k, v) ∈ TSTMap.iterList (build ops) ↔
          TSTMap.get (build ops) k = some v)) ∧
    TSTMap.iterList (build [Op.ins ( "b".data) (2 : Int), Op.ins ( "a".data) 1,
      Op.ins ( "c".data) 4, Op.ins ( "aa".data) 13]) =
      [( "a".data, 1), ( "aa".data, 13), ( "b".data, 2), ( "c".data, 4)] := by
  constructor
  · intro ops
    have hor := TSTMap.invOrd_build ops
    rw [iterList_eq_toList]
    refine ⟨Node.toList_sorted _ none none [] hor, ?_⟩
    intro k v
    have hm := Node.mem_toList_iff_find (build ops).root none none [] k v hor
    simpa [TSTMap.get] using hm
  · rw [iterList_eq_toList]
    decide

/-- Claim C5 (counterexample): `longest_prefix` slices the candidate at
a byte index equal to a character count; on the single-character
two-byte key ш, the stored key is a leading substring of the candidate
ш itself, yet `longest_prefix` panics (byte 1 is not a character
boundary) instead of returning the key. -/
theorem claim_C5_counterexample :
    TSTMap.get (build [Op.ins [ 'ш' ] (1 : Int)]) [ 'ш' ] = some 1 ∧
    TSTMap.longestPrefix (build [Op.ins [ 'ш' ] (1 : Int)]) [ 'ш' ] = none := by
  decide

/-- Claim C5 (amended): when every character of the candidate is a
single-byte character, `longest_prefix` returns the longest stored key
that is a leading substring of the candidate (the empty string if none
is); the four concrete examples of the claim hold as stated. -/
theorem claim_C5_longest_stored_ascii :
    (∀ (m : TSTMap Int) (cand : List Char),
      (∀ ch ∈ cand, Node.charBytes ch = 1) →
      ∃ n, TSTMap.longestPrefix m cand = some (cand.take n) ∧
        n ≤ cand.length ∧
        (n = 0 ∨ (TSTMap.get m (cand.take n)).isSome = true) ∧
        (∀ j, 0 < j → j ≤ cand.length →
          (TSTMap.get m (cand.take j)).isSome = true → j ≤ n)) ∧
    TSTMap.longestPrefix (build ops6) ( "abcde".data) = some ( "abcd".data) ∧
    TSTMap.longestPrefix (build ops6) ( "abcdef".data) = some ( "abcdef".data) ∧
    TSTMap.longestPrefix (build ops6) ( "qwer".data) = some [] ∧
    TSTMap.longestPrefix (build ops6) [] = some [] := by
  refine ⟨?_, by decide, by decide, by decide, by decide⟩
  intro m cand hascii
  obtain ⟨ha, hb, hc⟩ := Node.lpLen_spec cand m.root 0 0 (le_refl 0)
  have hn : Node.lpLen cand 0 0 m.root ≤ cand.length := by
    rcases ha with ha | ⟨j, hj1, hj2, hj3, hj4⟩
    · omega
    · omega
  refine ⟨Node.lpLen cand 0 0 m.root, ?_, hn, ?_, ?_⟩
  · rw [TSTMap.longestPrefix]
    exact Node.takeBytes_ascii _ cand hascii hn
  · rcases ha with ha | ⟨j, hj1, hj2, hj3, hj4⟩
    · exact Or.inl ha
    · right
      rw [show Node.lpLen cand 0 0 m.root = j from by omega]
      exact hj3
  · intro j hj1 hj2 hfind
    have := hc j hj1 hj2 hfind
    omega

/-- Claim C6 (counterexample): a non-empty key of 2000 bytes is absent
from the empty container, yet `insert` does not return "none" for it —
it panics with "Key is too long", so the claim fails as stated for
every non-empty key. -/
theorem claim_C6_counterexample :
    List.replicate 2000 'q' ≠ [] ∧
    TSTMap.get (TSTMap.new : TSTMap Int) (List.replicate 2000 'q') = none ∧
    TSTMap.insert (TSTMap.new : TSTMap Int) (List.replicate 2000 'q') 1 =
      .error "Key is too long" := by
  refine ⟨List.length_pos.mp (by rw [List.length_replicate]; omega),
    Node.find_nil _, ?_⟩
  apply TSTMap.insert_too_long
  rw [Node.utf8Len_replicate]
  have hq : Node.charBytes 'q' = 1 := by decide
  omega

/-- Claim C6 (amended): for every non-empty key of fewer than 2000
bytes and every reachable container not containing it, the first insert
returns "none" and increments the size by one, and a second insert of
the same key returns the first value, leaves exactly one entry for the
key (holding the second value), and leaves the size unchanged. -/
theorem claim_C6_double_insert :
    ∀ (ops : List (Op Int)) (k : List Char) (v1 v2 : Int),
      k ≠ [] → Node.utf8Len k < 2000 → TSTMap.get (build ops) k = none →
      ∃ m1 m2 : TSTMap Int,
        TSTMap.insert (build ops) k v1 = .ok (none, m1) ∧
        m1.size = (build ops).size + 1 ∧
        TSTMap.insert m1 k v2 = .ok (some v1, m2) ∧
        m2.size = m1.size ∧
        TSTMap.get m2 k = some v2 ∧
        (Node.toList m2.root []).filter (fun p => decide (p.1 = k)) =
          [(k, v2)] := by
  intro ops k v1 v2 h0 h2 habs
  have hor := TSTMap.invOrd_build ops
  have h1 := TSTMap.insert_ok (build ops) k v1 h0 h2
  rw [habs] at h1
  simp only [Option.isNone_none, if_true] at h1
  have hm1get : ∀ q, TSTMap.get
      (⟨(Node.insertWith k (fun _ => some v1) (build ops).root).1,
        (build ops).size + 1⟩ : TSTMap Int) q =
      if q = k then some v1 else TSTMap.get (build ops) q :=
    fun q => TSTMap.get_insert (build ops) k v1 q h0
  have hOrd1 : TSTMap.invOrd
      (⟨(Node.insertWith k (fun _ => some v1) (build ops).root).1,
        (build ops).size + 1⟩ : TSTMap Int) := by
    have hx := TSTMap.invOrd_applyOp (build ops) (Op.ins k v1) hor
    rw [applyOp, h1] at hx
    exact hx
  have h2' := TSTMap.insert_ok
    (⟨(Node.insertWith k (fun _ => some v1) (build ops).root).1,
      (build ops).size + 1⟩ : TSTMap Int) k v2 h0 h2
  rw [hm1get k, if_pos rfl] at h2'
  rw [if_neg (by simp : ¬ ((some v1 : Option Int).isNone = true))] at h2'
  have hOrd2 : TSTMap.invOrd
      (⟨(Node.insertWith k (fun _ => some v2)
          (Node.insertWith k (fun _ => some v1) (build ops).root).1).1,
        (build ops).size + 1⟩ : TSTMap Int) := by
    have hx := TSTMap.invOrd_applyOp
      (⟨(Node.insertWith k (fun _ => some v1) (build ops).root).1,
        (build ops).size + 1⟩ : TSTMap Int) (Op.ins k v2) hOrd1
    rw [applyOp, h2'] at hx
    exact hx
  have hm2get : TSTMap.get
      (⟨(Node.insertWith k (fun _ => some v2)
          (Node.insertWith k (fun _ => some v1) (build ops).root).1).1,
        (build ops).size + 1⟩ : TSTMap Int) k =
      if k = k then some v2 else TSTMap.get
        (⟨(Node.insertWith k (fun _ => some v1) (build ops).root).1,
          (build ops).size + 1⟩ : TSTMap Int) k :=
    TSTMap.get_insert
      (⟨(Node.insertWith k (fun _ => some v1) (build ops).root).1,
        (build ops).size + 1⟩ : TSTMap Int) k v2 k h0
  rw [if_pos rfl] at hm2get
  refine ⟨_, _, h1, rfl, h2', rfl, hm2get, ?_⟩
  apply Node.filter_key_singleton _ k v2
    (Node.toList_sorted _ none none [] hOrd2)
  have hfind : Node.find k
      (Node.insertWith k (fun _ => some v2)
        (Node.insertWith k (fun _ => some v1) (build ops).root).1).1 =
      some v2 := hm2get
  have := (Node.mem_toList_iff_find _ none none [] k v2 hOrd2).2 hfind
  simpa using this

/-- Claim C7 (confirmed, against the spec-modelled deletion of the
missing node.rs): removing every key ever inserted leaves the container
identical to a freshly constructed empty one, and after any sequence of
removals no dead node (absent value, no children) remains anywhere. -/
theorem claim_C7_remove_all_empty :
    ∀ (ps : List (List Char × Int)) (ks : List (List Char)),
      (∀ p ∈ ps, p.1 ∈ ks) →
      removeAll (fromList ps) ks = TSTMap.new ∧
      (∀ ks' : List (List Char),
        Node.fertile (removeAll (fromList ps) ks').root = true) := by
  intro ps ks hcov
  have hfull := TSTMap.invFull_fromList ps
  constructor
  · apply TSTMap.eq_new_of_no_bindings _ (TSTMap.invFull_removeAll ks _ hfull)
    intro q
    rw [TSTMap.get_removeAll]
    by_cases hq : q ∈ ks
    · rw [if_pos hq]
    · rw [if_neg hq]
      rcases hget : TSTMap.get (fromList ps) q with _ | v
      · rfl
      · exfalso
        have hmem := TSTMap.get_fromList_mem ps q (by rw [hget]; rfl)
        rw [List.mem_map] at hmem
        obtain ⟨p, hp, hpq⟩ := hmem
        exact hq (hpq ▸ hcov p hp)
  · intro ks'
    exact (TSTMap.invFull_removeAll ks' _ hfull).2.1

/-- Witness for the C7 theorem at a concrete input. -/
theorem claim_C7_remove_all_empty_witness :
    removeAll (fromList [( "BY".data, (1 : Int)), ( "BYE".data, 2),
        ( "BYGONE".data, 3)])
      [ "BY".data, "BYE".data, "BYGONE".data] = TSTMap.new :=
  (claim_C7_remove_all_empty _ _ (by decide)).1

/-- Claim C8 (counterexample): on a non-empty container the wildcard
iterator reads `self.pat[0]` before any guard, so the empty pattern —
which should yield the empty sequence, no key having length 0 — panics
instead. -/
theorem claim_C8_empty_pattern :
    TSTMap.wildcardList (build [Op.ins ( "x".data) (1 : Int)]) [] = none := by
  have hroot : (build [Op.ins ( "x".data) (1 : Int)]).root =
      Node.node 'x' Node.nil Node.nil Node.nil (some 1) := by decide
  rw [TSTMap.wildcardList, hroot]
  simp [wildRun]

/-- Claim C8 (amended): for every reachable container and every
NON-EMPTY fixed-length pattern, `wildcard_iter` yields exactly the
stored bindings whose key matches the pattern — equal character length,
literal match at every position where the pattern character is not the
any symbol — in ascending key order; the BYPA.. example and a
multi-byte-character example hold concretely. -/
theorem claim_C8_wildcard :
    (∀ (ops : List (Op Int)) (pat : List Char), pat ≠ [] →
      ∃ l, TSTMap.wildcardList (build ops) pat = some l ∧
        l.Pairwise (fun a b => Node.keyLt a.1 b.1 = true) ∧
        (∀ (k : List Char) (v : Int),
          (k, v) ∈ l ↔ TSTMap.get (build ops) k = some v ∧
            Node.wcMatch pat k = true)) ∧
    TSTMap.wildcardList (build prepOps) ( "BYPA..".data) =
      some [( "BYPASS".data, 6), ( "BYPATH".data, 7)] ∧
    TSTMap.wildcardList (build [Op.ins ( "сухонос".data) (1000 : Int),
      Op.ins ( "ухонос".data) 100, Op.ins ( "хонос".data) 10000,
      Op.ins ( "онос".data) (-100)]) ( "..х.но.".data) =
      some [( "сухонос".data, 1000)] := by
  refine ⟨?_, ?_, ?_⟩
  · intro ops pat hpat
    have hor := TSTMap.invOrd_build ops
    have h0 : 0 < pat.length := List.length_pos.2 hpat
    refine ⟨(Node.toList (build ops).root []).filter
        (fun q => Node.wcMatch pat q.1), ?_, ?_, ?_⟩
    · rw [wildcardList_eq_recWild _ _ hpat]
      rw [recWild_eq_filter pat (build ops).root none none [] 0 hor h0]
      simp only [List.drop_zero, List.length_nil]
    · exact List.Pairwise.sublist (List.filter_sublist _)
        (Node.toList_sorted _ none none [] hor)
    · intro k v
      rw [List.mem_filter]
      have hm := Node.mem_toList_iff_find (build ops).root none none [] k v hor
      simp only [List.nil_append] at hm
      rw [hm]
      exact Iff.rfl
  · rw [wildcardList_eq_recWild _ _ (by decide)]
    decide
  · rw [wildcardList_eq_recWild _ _ (by decide)]
    decide

/-- Witness for the general part of the amended C8 theorem at a
concrete input. -/
theorem claim_C8_wildcard_witness :
    ∃ l, TSTMap.wildcardList (build [Op.ins ( "x".data) (1 : Int)])
        ( ".".data) = some l ∧
      l.Pairwise (fun a b => Node.keyLt a.1 b.1 = true) ∧
      (∀ (k : List Char) (v : Int),
        (k, v) ∈ l ↔ TSTMap.get (build [Op.ins ( "x".data) (1 : Int)]) k =
          some v ∧ Node.wcMatch ( ".".data) k = true) :=
  claim_C8_wildcard.1 [Op.ins ( "x".data) (1 : Int)] ( ".".data) (by decide)

/-- Claim C9 (code bug): the Debug rendering is deterministic with keys
ascending, but its exact form writes no space after the comma and a
trailing comma before the closing brace — contradicting the claimed
form and the repository golden test `format`, which expects
comma-space separators and no trailing comma. -/
theorem claim_C9_debug_format :
    TSTMap.debugFmt (build [Op.ins ( "abc".data) (2 : Int),
      Op.ins ( "abd".data) 1, Op.ins ( "abdd".data) 4,
      Op.ins ( "abcdefghjkik".data) (-169874)]) (fun v : Int => toString v) =
      "\x7b\x22abc\x22: 2,\x22abcdefghjkik\x22: -169874,\x22abd\x22: 1,\x22abdd\x22: 4,\x7d" ∧
    ( "\x7b\x22abc\x22: 2,\x22abcdefghjkik\x22: -169874,\x22abd\x22: 1,\x22abdd\x22: 4,\x7d" : String) ≠
      "\x7b\x22abc\x22: 2, \x22abcdefghjkik\x22: -169874, \x22abd\x22: 1, \x22abdd\x22: 4\x7d" := by
  constructor
  · rw [TSTMap.debugFmt, iterList_eq_toList]
    decide
  · decide

/-- Claim C10 (confirmed): `entry` rejects only the empty key — for
every non-empty key, of any byte length, the entry view succeeds and a
vacant-entry insert stores the value — while `insert` rejects every key
of 2000 or more bytes. -/
theorem claim_C10_entry_no_length_limit :
    (∀ (m : TSTMap Int) (k : List Char) (d : Int), k ≠ [] →
      ∃ m', TSTMap.entry_or_insert m k d = .ok m') ∧
    (∀ (m : TSTMap Int) (k : List Char) (d : Int), k ≠ [] →
      TSTMap.get m k = none →
      ∀ m', TSTMap.entry_or_insert m k d = .ok m' →
        TSTMap.get m' k = some d) ∧
    (∀ (m : TSTMap Int) (k : List Char) (v : Int), 2000 ≤ Node.utf8Len k →
      TSTMap.insert m k v = .error "Key is too long") := by
  refine ⟨?_, ?_, ?_⟩
  · intro m k d hk
    obtain ⟨c, rest, rfl⟩ : ∃ c rest, k = c :: rest := by
      cases k with
      | nil => exact absurd rfl hk
      | cons c rest => exact ⟨c, rest, rfl⟩
    have hpos : 0 < Node.utf8Len (c :: rest) := by
      rw [Node.utf8Len_cons]
      have := Node.charBytes_pos c
      omega
    rw [TSTMap.entry_or_insert, if_pos hpos]
    exact ⟨_, rfl⟩
  · intro m k d hk habs m' hm'
    obtain ⟨c, rest, rfl⟩ : ∃ c rest, k = c :: rest := by
      cases k with
      | nil => exact absurd rfl hk
      | cons c rest => exact ⟨c, rest, rfl⟩
    have hpos : 0 < Node.utf8Len (c :: rest) := by
      rw [Node.utf8Len_cons]
      have := Node.charBytes_pos c
      omega
    rw [TSTMap.entry_or_insert, if_pos hpos] at hm'
    simp only [] at hm'
    injection hm' with hm'
    rw [← hm']
    simp only [TSTMap.get]
    rw [Node.find_insertWith rest c _ m.root (c :: rest), if_pos rfl]
    have habs' : Node.find (c :: rest) m.root = none := habs
    rw [habs']
  · intro m k v h
    exact TSTMap.insert_too_long m k v h

/-- Witness for the C10 theorem at a key of 2000 bytes. -/
theorem claim_C10_entry_no_length_limit_witness :
    (∃ m', TSTMap.entry_or_insert (TSTMap.new : TSTMap Int)
        (List.replicate 2000 'a') 5 = .ok m') ∧
    TSTMap.insert (TSTMap.new : TSTMap Int) (List.replicate 2000 'a') 5 =
      .error "Key is too long" :=
  ⟨claim_C10_entry_no_length_limit.1 TSTMap.new (List.replicate 2000 'a') 5
      (List.length_pos.mp (by rw [List.length_replicate]; omega)),
    claim_C10_entry_no_length_limit.2.2 TSTMap.new (List.replicate 2000 'a') 5
      (by
        rw [Node.utf8Len_replicate]
        have ha : Node.charBytes 'a' = 1 := by decide
        omega)⟩

/-- Witness for the amended C5 theorem at a concrete input. -/
theorem claim_C5_longest_stored_ascii_witness :
    ∃ n, TSTMap.longestPrefix (build ops6) ( "abcde".data) =
        some (( "abcde".data).take n) ∧
      n ≤ ( "abcde".data).length ∧
      (n = 0 ∨ (TSTMap.get (build ops6) (( "abcde".data).take n)).isSome = true) ∧
      (∀ j, 0 < j → j ≤ ( "abcde".data).length →
        (TSTMap.get (build ops6) (( "abcde".data).take j)).isSome = true →
          j ≤ n) :=
  claim_C5_longest_stored_ascii.1 (build ops6) ( "abcde".data) (by decide)

/-- Witness for the amended C6 theorem at a concrete input. -/
theorem claim_C6_double_insert_witness :
    ∃ m1 m2 : TSTMap Int,
      TSTMap.insert (build [Op.ins ( "x".data) (7 : Int)]) ( "ab".data) 3 =
        .ok (none, m1) ∧
      m1.size = (build [Op.ins ( "x".data) (7 : Int)]).size + 1 ∧
      TSTMap.insert m1 ( "ab".data) 4 = .ok (some 3, m2) ∧
      m2.size = m1.size ∧
      TSTMap.get m2 ( "ab".data) = some 4 ∧
      (Node.toList m2.root []).filter (fun p => decide (p.1 = "ab".data)) =
        [( "ab".data, 4)] :=
  claim_C6_double_insert [Op.ins ( "x".data) (7 : Int)] ( "ab".data) 3 4
    (by decide) (by decide) (by decide)

end Tst
